import Mathlib

/-!
# Verification of the `kvs` Bitcask-style key-value store

Shallow embedding of `src/kv.rs` (a log-structured persistent key-value
store) and proofs about its public operations.

Modelling conventions:
* File contents are modelled as `List Char` (the log format is textual
  JSON, written by `serde_json`); positions and lengths count characters,
  the unit in which the embedded writer/reader positions are measured.
* `HashMap` is modelled as an association list with first-occurrence
  lookup; the store maintains key-uniqueness, mirroring `HashMap`'s
  unique keys.
* The reader fleet is modelled by its key set (a list of generations):
  every read path (`get`, `load`, `compact`) seeks to an absolute
  position before reading, so the readers' cursor positions are not
  observable.
* The directory is modelled as the association list `files : gen ↦
  contents`.  A buffered write appends to the in-model file at write
  time; `flush` only decides whether an error is reported (durability
  is out of scope, per spec §1).
* Fallible I/O is driven by an explicit `IoOutcome` oracle passed to
  each mutating operation, saying whether the underlying write and
  flush calls succeed.
-/

set_option maxHeartbeats 1000000

namespace Kvs

/-! ## Association-list primitives (model of `std::collections::HashMap`) -/

/-- First-occurrence lookup in an association list. -/
def lookupA {κ α : Type} [DecidableEq κ] (k : κ) : List (κ × α) → Option α
  | [] => none
  | (k', v) :: rest => if k' = k then some v else lookupA k rest

/-- `HashMap::insert`: replace the first binding of `k`, or append a new one. -/
def insertA {κ α : Type} [DecidableEq κ] (k : κ) (v : α) : List (κ × α) → List (κ × α)
  | [] => [(k, v)]
  | (k', v') :: rest => if k' = k then (k, v) :: rest else (k', v') :: insertA k v rest

/-- `HashMap::remove`: drop the first binding of `k`. -/
def eraseA {κ α : Type} [DecidableEq κ] (k : κ) : List (κ × α) → List (κ × α)
  | [] => []
  | (k', v') :: rest => if k' = k then rest else (k', v') :: eraseA k rest

/-- Insert a generation into the reader fleet's key set (no duplicates). -/
def insertGen (g : Nat) (rs : List Nat) : List Nat :=
  if g ∈ rs then rs else g :: rs

/-! ## The log record codec (model of `serde_json` for `enum Command`)

`Command` derives `Serialize`/`Deserialize`; `serde_json` renders
`Command::Set {key, value}` as `{"Set":{"key":k,"value":v}}` and
`Command::Remove {key}` as `{"Remove":{"key":k}}`, with JSON string
escaping of `"`, `\` and control characters (`\b \t \n \f \r`, other
control characters as `\u00XX` with lowercase hex).  The decoder below
accepts the standard JSON string escapes. -/

/-- The two log record variants (`enum Command` in `kv.rs`). -/
inductive Command where
  | set (key value : String)
  | remove (key : String)
deriving DecidableEq

/-- Lowercase hex digit, as emitted by `serde_json`. -/
def hexDigitChar (n : Nat) : Char :=
  if n < 10 then Char.ofNat (48 + n) else Char.ofNat (87 + n)

/-- Value of a hex digit accepted by the JSON string grammar. -/
def hexVal (c : Char) : Option Nat :=
  if 48 ≤ c.toNat ∧ c.toNat ≤ 57 then some (c.toNat - 48)
  else if 97 ≤ c.toNat ∧ c.toNat ≤ 102 then some (c.toNat - 87)
  else if 65 ≤ c.toNat ∧ c.toNat ≤ 70 then some (c.toNat - 55)
  else none

/-- JSON string escaping of one character, following `serde_json`'s
escape table: `"` and `\` get a backslash escape, the five control
characters with short forms use them, the remaining control characters
use `\u00XX`, and everything else is emitted verbatim. -/
def escChar (c : Char) : List Char :=
  if c = '"' then ['\\', '"']
  else if c = '\\' then ['\\', '\\']
  else if c.toNat = 8 then ['\\', 'b']
  else if c.toNat = 9 then ['\\', 't']
  else if c.toNat = 10 then ['\\', 'n']
  else if c.toNat = 12 then ['\\', 'f']
  else if c.toNat = 13 then ['\\', 'r']
  else if c.toNat < 32 then
    ['\\', 'u', '0', '0', hexDigitChar (c.toNat / 16), hexDigitChar (c.toNat % 16)]
  else [c]

/-- JSON string escaping of a character sequence. -/
def escString (s : List Char) : List Char :=
  s.foldr (fun c acc => escChar c ++ acc) []

/-- Encoding of one log record, exactly as `serde_json::to_writer`
emits it for `Command` (no whitespace; struct fields in declaration
order). -/
def encodeCommand : Command → List Char
  | .set k v =>
      "\x7b\"Set\":\x7b\"key\":\"".toList ++ escString k.toList ++
        "\",\"value\":\"".toList ++ escString v.toList ++ "\"\x7d\x7d".toList
  | .remove k =>
      "\x7b\"Remove\":\x7b\"key\":\"".toList ++ escString k.toList ++ "\"\x7d\x7d".toList

/-- Strip an expected literal from the front of the input. -/
def stripLead : List Char → List Char → Option (List Char)
  | [], s => some s
  | _ :: _, [] => none
  | p :: ps, c :: cs => if p = c then stripLead ps cs else none

/-- Parse the body of a JSON string literal (the opening `"` already
consumed): returns the unescaped contents and the input after the
closing `"`.  Rejects unescaped control characters and malformed
escapes, like `serde_json`'s lexer. -/
def parseStringBody : List Char → Option (List Char × List Char)
  | [] => none
  | c :: rest =>
    if c = '"' then some ([], rest)
    else if c = '\\' then
      match rest with
      | [] => none
      | e :: rest2 =>
        if e = '"' then (parseStringBody rest2).map fun p => ('"' :: p.1, p.2)
        else if e = '\\' then (parseStringBody rest2).map fun p => ('\\' :: p.1, p.2)
        else if e = '/' then (parseStringBody rest2).map fun p => ('/' :: p.1, p.2)
        else if e = 'b' then (parseStringBody rest2).map fun p => (Char.ofNat 8 :: p.1, p.2)
        else if e = 't' then (parseStringBody rest2).map fun p => (Char.ofNat 9 :: p.1, p.2)
        else if e = 'n' then (parseStringBody rest2).map fun p => (Char.ofNat 10 :: p.1, p.2)
        else if e = 'f' then (parseStringBody rest2).map fun p => (Char.ofNat 12 :: p.1, p.2)
        else if e = 'r' then (parseStringBody rest2).map fun p => (Char.ofNat 13 :: p.1, p.2)
        else if e = 'u' then
          match rest2 with
          | h1 :: h2 :: h3 :: h4 :: rest3 =>
            match hexVal h1, hexVal h2, hexVal h3, hexVal h4 with
            | some a, some b, some c2, some d =>
              let n := 4096 * a + 256 * b + 16 * c2 + d
              if Nat.isValidChar n then
                (parseStringBody rest3).map fun p => (Char.ofNat n :: p.1, p.2)
              else none
            | _, _, _, _ => none
          | _ => none
        else none
    else if c.toNat < 32 then none
    else (parseStringBody rest).map fun p => (c :: p.1, p.2)

/-- Decode one `Command` from the front of the input, returning the
remaining input (the streaming decoder's `byte_offset` is the amount
consumed).  Mirrors `serde_json`'s deserializer on the canonical
encoding produced by `encodeCommand`: the variant is discriminated by
the object's single field name (`Set` or `Remove`). -/
def decodeCommand (s : List Char) : Option (Command × List Char) :=
  match stripLead "\x7b\"Set\":\x7b\"key\":\"".toList s with
  | some r1 => do
    let p1 ← parseStringBody r1
    let r3 ← stripLead ",\"value\":\"".toList p1.2
    let p2 ← parseStringBody r3
    let r5 ← stripLead "\x7d\x7d".toList p2.2
    some (.set (String.mk p1.1) (String.mk p2.1), r5)
  | none => do
    let r1 ← stripLead "\x7b\"Remove\":\x7b\"key\":\"".toList s
    let p1 ← parseStringBody r1
    let r3 ← stripLead "\x7d\x7d".toList p1.2
    some (.remove (String.mk p1.1), r3)

/-! ### Codec lemmas

The decoder inverts the encoder, and decoding strictly consumes input
(the latter is needed to define the replay loop by well-founded
recursion). -/

theorem hexVal_hexDigitChar {m : Nat} (h : m < 16) :
    hexVal (hexDigitChar m) = some m := by
  interval_cases m <;> decide

theorem psb_quote (t : List Char) : parseStringBody ('"' :: t) = some ([], t) := by
  simp [parseStringBody.eq_def]

theorem psb_esc2 (t : List Char) :
    parseStringBody ('\\' :: '"' :: t) = (parseStringBody t).map fun p => ('"' :: p.1, p.2) := by
  rw [parseStringBody.eq_def]; simp

theorem psb_esc_bslash (t : List Char) :
    parseStringBody ('\\' :: '\\' :: t) = (parseStringBody t).map fun p => ('\\' :: p.1, p.2) := by
  rw [parseStringBody.eq_def]; simp

theorem psb_esc_slash (t : List Char) :
    parseStringBody ('\\' :: '/' :: t) = (parseStringBody t).map fun p => ('/' :: p.1, p.2) := by
  rw [parseStringBody.eq_def]; simp

theorem psb_esc_b (t : List Char) :
    parseStringBody ('\\' :: 'b' :: t)
      = (parseStringBody t).map fun p => (Char.ofNat 8 :: p.1, p.2) := by
  rw [parseStringBody.eq_def]; simp

theorem psb_esc_t (t : List Char) :
    parseStringBody ('\\' :: 't' :: t)
      = (parseStringBody t).map fun p => (Char.ofNat 9 :: p.1, p.2) := by
  rw [parseStringBody.eq_def]; simp

theorem psb_esc_n (t : List Char) :
    parseStringBody ('\\' :: 'n' :: t)
      = (parseStringBody t).map fun p => (Char.ofNat 10 :: p.1, p.2) := by
  rw [parseStringBody.eq_def]; simp

theorem psb_esc_f (t : List Char) :
    parseStringBody ('\\' :: 'f' :: t)
      = (parseStringBody t).map fun p => (Char.ofNat 12 :: p.1, p.2) := by
  rw [parseStringBody.eq_def]; simp

theorem psb_esc_r (t : List Char) :
    parseStringBody ('\\' :: 'r' :: t)
      = (parseStringBody t).map fun p => (Char.ofNat 13 :: p.1, p.2) := by
  rw [parseStringBody.eq_def]; simp

theorem psb_esc_u {d1 d2 d3 d4 : Char} {a b c2 d : Nat} (t : List Char)
    (e1 : hexVal d1 = some a) (e2 : hexVal d2 = some b)
    (e3 : hexVal d3 = some c2) (e4 : hexVal d4 = some d)
    (hv : Nat.isValidChar (4096 * a + 256 * b + 16 * c2 + d)) :
    parseStringBody ('\\' :: 'u' :: d1 :: d2 :: d3 :: d4 :: t) =
      (parseStringBody t).map
        fun p => (Char.ofNat (4096 * a + 256 * b + 16 * c2 + d) :: p.1, p.2) := by
  rw [parseStringBody.eq_def]; simp [e1, e2, e3, e4, hv]

theorem psb_raw {c : Char} (h1 : c ≠ '"') (h2 : c ≠ '\\') (h3 : ¬ c.toNat < 32) (t : List Char) :
    parseStringBody (c :: t) = (parseStringBody t).map fun p => (c :: p.1, p.2) := by
  rw [parseStringBody.eq_def]; simp [h1, h2, h3]

/-- Unescaping inverts escaping: parsing an escaped string followed by
the closing quote recovers the original characters. -/
theorem parse_escape (cs rest : List Char) :
    parseStringBody (escString cs ++ '"' :: rest) = some (cs, rest) := by
  induction cs with
  | nil => simpa [escString] using psb_quote rest
  | cons c cs ih =>
    have hesc : escString (c :: cs) = escChar c ++ escString cs := rfl
    rw [hesc, List.append_assoc]
    by_cases h1 : c = '"'
    · subst h1; simp [escChar, psb_esc2, ih]
    · by_cases h2 : c = '\\'
      · subst h2; simp [escChar, psb_esc_bslash, ih]
      · by_cases h3 : c.toNat = 8
        · have hc : Char.ofNat 8 = c := by rw [← h3, Char.ofNat_toNat]
          have he : escChar c = ['\\', 'b'] := by simp [escChar, h1, h2, h3]
          rw [he]
          simp only [List.cons_append, List.nil_append, psb_esc_b, ih, Option.map_some']
          rw [hc]
        · by_cases h4 : c.toNat = 9
          · have hc : Char.ofNat 9 = c := by rw [← h4, Char.ofNat_toNat]
            have he : escChar c = ['\\', 't'] := by simp [escChar, h1, h2, h3, h4]
            rw [he]
            simp only [List.cons_append, List.nil_append, psb_esc_t, ih, Option.map_some']
            rw [hc]
          · by_cases h5 : c.toNat = 10
            · have hc : Char.ofNat 10 = c := by rw [← h5, Char.ofNat_toNat]
              have he : escChar c = ['\\', 'n'] := by simp [escChar, h1, h2, h3, h4, h5]
              rw [he]
              simp only [List.cons_append, List.nil_append, psb_esc_n, ih, Option.map_some']
              rw [hc]
            · by_cases h6 : c.toNat = 12
              · have hc : Char.ofNat 12 = c := by rw [← h6, Char.ofNat_toNat]
                have he : escChar c = ['\\', 'f'] := by simp [escChar, h1, h2, h3, h4, h5, h6]
                rw [he]
                simp only [List.cons_append, List.nil_append, psb_esc_f, ih, Option.map_some']
                rw [hc]
              · by_cases h7 : c.toNat = 13
                · have hc : Char.ofNat 13 = c := by rw [← h7, Char.ofNat_toNat]
                  have he : escChar c = ['\\', 'r'] := by
                    simp [escChar, h1, h2, h3, h4, h5, h6, h7]
                  rw [he]
                  simp only [List.cons_append, List.nil_append, psb_esc_r, ih, Option.map_some']
                  rw [hc]
                · by_cases h8 : c.toNat < 32
                  · have he : escChar c = ['\\', 'u', '0', '0',
                        hexDigitChar (c.toNat / 16), hexDigitChar (c.toNat % 16)] := by
                      simp [escChar, h1, h2, h3, h4, h5, h6, h7, h8]
                    rw [he]
                    have hu := psb_esc_u (escString cs ++ '"' :: rest)
                      (by decide : hexVal '0' = some 0) (by decide : hexVal '0' = some 0)
                      (hexVal_hexDigitChar (show c.toNat / 16 < 16 by omega))
                      (hexVal_hexDigitChar (show c.toNat % 16 < 16 by omega))
                      (Or.inl (by omega))
                    have harith : 4096 * 0 + 256 * 0 + 16 * (c.toNat / 16) + c.toNat % 16
                        = c.toNat := by omega
                    rw [harith] at hu
                    simp only [List.cons_append, List.nil_append]
                    rw [hu, ih, Option.map_some', Char.ofNat_toNat]
                  · have he : escChar c = [c] := by
                      simp [escChar, h1, h2, h3, h4, h5, h6, h7, h8]
                    rw [he]
                    simp only [List.cons_append, List.nil_append, psb_raw h1 h2 h8, ih,
                      Option.map_some']

theorem psb_length_aux : ∀ (n : Nat) (s : List Char), s.length ≤ n →
    ∀ p : List Char × List Char, parseStringBody s = some p → p.2.length < s.length := by
  intro n
  induction n with
  | zero =>
    intro s hs p hp
    rcases s with _ | ⟨c, t⟩
    · rw [parseStringBody.eq_def] at hp; exact absurd hp (by simp)
    · simp at hs
  | succ n ih =>
    intro s hs p hp
    rcases s with _ | ⟨c, t⟩
    · rw [parseStringBody.eq_def] at hp; exact absurd hp (by simp)
    by_cases h1 : c = '"'
    · subst h1; rw [psb_quote] at hp
      have : ([] , t) = p := by simpa using hp
      subst this; simp
    by_cases h2 : c = '\\'
    · subst h2
      rcases t with _ | ⟨e, t2⟩
      · exact absurd hp (by rw [parseStringBody.eq_def]; simp)
      by_cases e1 : e = '"'
      · subst e1; rw [psb_esc2] at hp
        obtain ⟨q, hq, hq2⟩ := Option.map_eq_some'.mp hp
        have hlt := ih t2 (by simp at hs ⊢; omega) q hq
        subst hq2; simp at hlt ⊢; omega
      by_cases e2 : e = '\\'
      · subst e2; rw [psb_esc_bslash] at hp
        obtain ⟨q, hq, hq2⟩ := Option.map_eq_some'.mp hp
        have hlt := ih t2 (by simp at hs ⊢; omega) q hq
        subst hq2; simp at hlt ⊢; omega
      by_cases e3 : e = '/'
      · subst e3; rw [psb_esc_slash] at hp
        obtain ⟨q, hq, hq2⟩ := Option.map_eq_some'.mp hp
        have hlt := ih t2 (by simp at hs ⊢; omega) q hq
        subst hq2; simp at hlt ⊢; omega
      by_cases e4 : e = 'b'
      · subst e4; rw [psb_esc_b] at hp
        obtain ⟨q, hq, hq2⟩ := Option.map_eq_some'.mp hp
        have hlt := ih t2 (by simp at hs ⊢; omega) q hq
        subst hq2; simp at hlt ⊢; omega
      by_cases e5 : e = 't'
      · subst e5; rw [psb_esc_t] at hp
        obtain ⟨q, hq, hq2⟩ := Option.map_eq_some'.mp hp
        have hlt := ih t2 (by simp at hs ⊢; omega) q hq
        subst hq2; simp at hlt ⊢; omega
      by_cases e6 : e = 'n'
      · subst e6; rw [psb_esc_n] at hp
        obtain ⟨q, hq, hq2⟩ := Option.map_eq_some'.mp hp
        have hlt := ih t2 (by simp at hs ⊢; omega) q hq
        subst hq2; simp at hlt ⊢; omega
      by_cases e7 : e = 'f'
      · subst e7; rw [psb_esc_f] at hp
        obtain ⟨q, hq, hq2⟩ := Option.map_eq_some'.mp hp
        have hlt := ih t2 (by simp at hs ⊢; omega) q hq
        subst hq2; simp at hlt ⊢; omega
      by_cases e8 : e = 'r'
      · subst e8; rw [psb_esc_r] at hp
        obtain ⟨q, hq, hq2⟩ := Option.map_eq_some'.mp hp
        have hlt := ih t2 (by simp at hs ⊢; omega) q hq
        subst hq2; simp at hlt ⊢; omega
      by_cases e9 : e = 'u'
      · subst e9
        rcases t2 with _ | ⟨a1, _ | ⟨a2, _ | ⟨a3, _ | ⟨a4, t3⟩⟩⟩⟩
        · exact absurd hp (by rw [parseStringBody.eq_def]; simp)
        · exact absurd hp (by rw [parseStringBody.eq_def]; simp)
        · exact absurd hp (by rw [parseStringBody.eq_def]; simp)
        · exact absurd hp (by rw [parseStringBody.eq_def]; simp)
        rcases hv1 : hexVal a1 with _ | va
        · exact absurd hp (by rw [parseStringBody.eq_def]; simp [hv1])
        rcases hv2 : hexVal a2 with _ | vb
        · exact absurd hp (by rw [parseStringBody.eq_def]; simp [hv1, hv2])
        rcases hv3 : hexVal a3 with _ | vc
        · exact absurd hp (by rw [parseStringBody.eq_def]; simp [hv1, hv2, hv3])
        rcases hv4 : hexVal a4 with _ | vd
        · exact absurd hp (by rw [parseStringBody.eq_def]; simp [hv1, hv2, hv3, hv4])
        by_cases hval : Nat.isValidChar (4096 * va + 256 * vb + 16 * vc + vd)
        · rw [psb_esc_u t3 hv1 hv2 hv3 hv4 hval] at hp
          obtain ⟨q, hq, hq2⟩ := Option.map_eq_some'.mp hp
          have hlt := ih t3 (by simp at hs ⊢; omega) q hq
          subst hq2; simp at hlt ⊢; omega
        · exact absurd hp (by rw [parseStringBody.eq_def]; simp [hv1, hv2, hv3, hv4, hval])
      · refine absurd hp ?_
        rw [parseStringBody.eq_def]
        simp [e1, e2, e3, e4, e5, e6, e7, e8, e9]
    by_cases h3 : c.toNat < 32
    · exact absurd hp (by rw [parseStringBody.eq_def]; simp [h1, h2, h3])
    · rw [psb_raw h1 h2 h3] at hp
      obtain ⟨q, hq, hq2⟩ := Option.map_eq_some'.mp hp
      have hlt := ih t (by simp at hs ⊢; omega) q hq
      subst hq2; simp at hlt ⊢; omega

theorem psb_length {s : List Char} {p : List Char × List Char}
    (hp : parseStringBody s = some p) : p.2.length < s.length :=
  psb_length_aux s.length s le_rfl p hp

theorem stripLead_append (p s : List Char) : stripLead p (p ++ s) = some s := by
  induction p with
  | nil => rfl
  | cons c cs ih => simp [stripLead, ih]

theorem stripLead_length {p s r : List Char} (h : stripLead p s = some r) :
    r.length + p.length = s.length := by
  induction p generalizing s with
  | nil => cases s <;> simp_all [stripLead]
  | cons c cs ih =>
    match s with
    | [] => simp [stripLead] at h
    | d :: ds =>
      simp only [stripLead] at h
      split at h
      · have := ih h
        simp [List.length]
        omega
      · exact absurd h (by simp)

theorem stripLead_set_remove_none (x : List Char) :
    stripLead "\x7b\"Set\":\x7b\"key\":\"".toList
      ("\x7b\"Remove\":\x7b\"key\":\"".toList ++ x) = none := by
  simp [stripLead, String.toList]

theorem string_mk_toList (s : String) : String.mk s.toList = s := rfl

/-- The codec round-trip at the `List Char` level: decoding an encoded
record (with arbitrary trailing input) succeeds and consumes exactly
the encoding. -/
theorem decode_encode (c : Command) (rest : List Char) :
    decodeCommand (encodeCommand c ++ rest) = some (c, rest) := by
  cases c with
  | set k v =>
    have hsplit1 : "\",\"value\":\"".toList = '"' :: ",\"value\":\"".toList := rfl
    have hsplit2 : "\"\x7d\x7d".toList = '"' :: "\x7d\x7d".toList := rfl
    have harr : encodeCommand (Command.set k v) ++ rest =
        "\x7b\"Set\":\x7b\"key\":\"".toList ++ (escString k.toList ++ '"' ::
          (",\"value\":\"".toList ++ (escString v.toList ++ '"' ::
            ("\x7d\x7d".toList ++ rest)))) := by
      simp [encodeCommand, hsplit1, hsplit2]
    rw [harr]
    simp only [decodeCommand, stripLead_append, parse_escape, Option.bind_eq_bind,
      Option.some_bind, string_mk_toList]
  | remove k =>
    have hsplit2 : "\"\x7d\x7d".toList = '"' :: "\x7d\x7d".toList := rfl
    have harr : encodeCommand (Command.remove k) ++ rest =
        "\x7b\"Remove\":\x7b\"key\":\"".toList ++ (escString k.toList ++ '"' ::
          ("\x7d\x7d".toList ++ rest)) := by
      simp [encodeCommand, hsplit2]
    rw [harr]
    simp only [decodeCommand, stripLead_set_remove_none, stripLead_append,
      parse_escape, Option.bind_eq_bind, Option.some_bind, string_mk_toList]

/-- Decoding one record strictly consumes input. -/
theorem decode_consumes {s : List Char} {c : Command} {r : List Char}
    (h : decodeCommand s = some (c, r)) : r.length < s.length := by
  unfold decodeCommand at h
  split at h
  next r1 hs1 =>
    simp only [Option.bind_eq_bind, Option.bind_eq_some] at h
    obtain ⟨p1, hp1, ⟨r3, hs2, ⟨p2, hp2, ⟨r5, hs3, heq⟩⟩⟩⟩ := h
    have hl1 := stripLead_length hs1
    have hP1 : (0:Nat) < ("\x7b\"Set\":\x7b\"key\":\"".toList).length := by decide
    have hl2 := psb_length hp1
    have hl3 := stripLead_length hs2
    have hl4 := psb_length hp2
    have hl5 := stripLead_length hs3
    have hr : r = r5 := by simpa using congrArg (fun q => q.2) (Option.some.inj heq).symm
    subst hr
    omega
  next hs1 =>
    simp only [Option.bind_eq_bind, Option.bind_eq_some] at h
    obtain ⟨r1, hs2, ⟨p1, hp1, ⟨r3, hs3, heq⟩⟩⟩ := h
    have hl1 := stripLead_length hs2
    have hP1 : (0:Nat) < ("\x7b\"Remove\":\x7b\"key\":\"".toList).length := by decide
    have hl2 := psb_length hp1
    have hl3 := stripLead_length hs3
    have hr : r = r3 := by simpa using congrArg (fun q => q.2) (Option.some.inj heq).symm
    subst hr
    omega

/-! ## The store (model of `struct KvStore` and its operations) -/

/-- Modelled from the spec: `src/error.rs` is not part of the provided
sources; the error taxonomy is from spec §7 (I/O, codec/corrupt-log
errors from `serde_json`, `KeyNotFound`, `UnexpectedCommandType`). -/
inductive KvsError where
  | Io
  | Serde
  | KeyNotFound
  | UnexpectedCommandType
deriving DecidableEq

/-- The outcome of running an operation: either a `KvsError` returned
through `Result`, or a panic (`unwrap`/`expect` in the source). -/
inductive RunError where
  | kvs (e : KvsError)
  | panic
deriving DecidableEq

abbrev KvResult (α : Type) := Except RunError α

/-- Oracle for the underlying file-system calls made by one mutating
operation: whether the (serialize+)write succeeds and whether the
flush succeeds. -/
structure IoOutcome where
  writeOk : Bool
  flushOk : Bool
deriving DecidableEq

/-- All-success oracle. -/
def ioOk : IoOutcome := ⟨true, true⟩

/-- `struct CommandPos`: file number `gen`, starting offset `pos`,
record length `len`. -/
structure CommandPos where
  pos : Nat
  len : Nat
  gen : Nat
deriving DecidableEq

/-- `const COMPACTION_THRESHOLD: u64 = 128`. -/
def COMPACTION_THRESHOLD : Nat := 128

/-- `struct KvStore`.  `readers` is the reader fleet's key set,
`files` the data directory (`gen ↦ contents` of `gen.log`),
`writerGen`/`writerPos` the append writer (bound to file `writerGen`,
positioned at `writerPos`). -/
structure KvStore where
  readers : List Nat
  files : List (Nat × List Char)
  writerGen : Nat
  writerPos : Nat
  index : List (String × CommandPos)
  current_gen : Nat
  uncompacted : Nat
deriving DecidableEq

/-- Append bytes to the (logical) file `g`. -/
def appendToFile (g : Nat) (bytes : List Char) (files : List (Nat × List Char)) :
    List (Nat × List Char) :=
  insertA g ((lookupA g files).getD [] ++ bytes) files

/-- `fn new_log_file(path, gen, readers)`: create/open `gen.log` in
append mode (existing contents kept), position the writer at
end-of-file, and insert a reader for `gen` into the fleet.  Returns
the updated directory, fleet and writer position. -/
def newLogFile (gen : Nat) (files : List (Nat × List Char)) (readers : List Nat) :
    List (Nat × List Char) × List Nat × Nat :=
  let content := (lookupA gen files).getD []
  (insertA gen content files, insertGen gen readers, content.length)

/-- `KvStore::get`.  Looks up the index; on a hit, demands the reader
for the entry's generation (`.expect` panics when absent — modelled by
`RunError.panic`), seeks to `pos`, takes `len` bytes and decodes
exactly one record. -/
def KvStore.get (s : KvStore) (key : String) : KvResult (Option String) :=
  match lookupA key s.index with
  | none => .ok none
  | some cp =>
    if cp.gen ∈ s.readers then
      let file := (lookupA cp.gen s.files).getD []
      let seg := (file.drop cp.pos).take cp.len
      match decodeCommand seg with
      | some (.set _ v, []) => .ok (some v)
      | some (.remove _, []) => .error (.kvs .UnexpectedCommandType)
      | _ => .error (.kvs .Serde)
    else .error .panic

/-- The copy loop of `KvStore::compact`: for every index entry (in
order), read `len` bytes at `pos` from the entry's generation and
append them to the compaction file; the entry is rewritten to
`(compaction_gen, new_pos, len)` where `len` is the number of bytes
actually copied (`io::copy`'s return value).  Returns `none` when the
`.expect` on a missing reader would panic; otherwise the rewritten
entries and the bytes written (positions offset by `newPos`). -/
def compactLoop (readers : List Nat) (files : List (Nat × List Char)) (cgen : Nat) :
    List (String × CommandPos) → Nat →
      Option (List (String × CommandPos) × List Char)
  | [], _ => some ([], [])
  | (k, cp) :: rest, newPos =>
    if cp.gen ∈ readers then
      let file := (lookupA cp.gen files).getD []
      let seg := (file.drop cp.pos).take cp.len
      match compactLoop readers files cgen rest (newPos + seg.length) with
      | some (entries, content) =>
        some ((k, ⟨newPos, seg.length, cgen⟩) :: entries, seg ++ content)
      | none => none
    else none

/-- `KvStore::compact`: reserve `compaction_gen = current_gen + 1` for
the compaction output and move the writer to `current_gen + 2`; copy
every live record into the compaction file; rewrite the index in
place; flush; then drop every reader with generation `<
compaction_gen` and delete its file; finally reset `uncompacted`.
The model always succeeds on the I/O path (errors would propagate via
`?`); only the `.expect` panic is represented. -/
def KvStore.compact (s : KvStore) : KvResult Unit × KvStore :=
  let compaction_gen := s.current_gen + 1
  let current_gen := s.current_gen + 2
  let fr1 := newLogFile current_gen s.files s.readers
  let fr2 := newLogFile compaction_gen fr1.1 fr1.2.1
  match compactLoop fr2.2.1 fr2.1 compaction_gen s.index 0 with
  | none => (.error .panic, s)
  | some (index', content) =>
    let files3 := appendToFile compaction_gen content fr2.1
    let stale := fr2.2.1.filter (fun g => g < compaction_gen)
    let readers' := fr2.2.1.filter (fun g => ¬ g < compaction_gen)
    let files' := stale.foldl (fun fs g => eraseA g fs) files3
    (.ok (), { readers := readers', files := files',
               writerGen := current_gen, writerPos := fr1.2.2,
               index := index', current_gen := current_gen,
               uncompacted := 0 })

/-- The successful body of `KvStore::set` (write, flush, publish the
index entry, charge a superseded entry's `len`), before the
compaction-threshold check. -/
def KvStore.setRaw (s : KvStore) (key value : String) : KvStore :=
  let pos := s.writerPos
  let encoded := encodeCommand (Command.set key value)
  let cmdPos : CommandPos := ⟨pos, (pos + encoded.length) - pos, s.current_gen⟩
  let old := lookupA key s.index
  { s with
    files := appendToFile s.writerGen encoded s.files,
    writerPos := pos + encoded.length,
    index := insertA key cmdPos s.index,
    uncompacted := s.uncompacted + (match old with | some o => o.len | none => 0) }

/-- `KvStore::set`: record the writer position, serialize the `Set`
record to the writer, flush, publish `index[key] = (current_gen, pos,
new_pos - pos)` adding a superseded entry's `len` to `uncompacted`,
and compact when `uncompacted > COMPACTION_THRESHOLD`.  An I/O failure
returns `Err` before the index is touched. -/
def KvStore.set (s : KvStore) (io : IoOutcome) (key value : String) :
    KvResult Unit × KvStore :=
  if io.writeOk then
    if io.flushOk then
      let s2 := s.setRaw key value
      if s2.uncompacted > COMPACTION_THRESHOLD then s2.compact else (.ok (), s2)
    else
      (.error (.kvs .Io), { s with
        files := appendToFile s.writerGen (encodeCommand (Command.set key value)) s.files,
        writerPos := s.writerPos + (encodeCommand (Command.set key value)).length })
  else (.error (.kvs .Io), s)

/-- `KvStore::remove`: fail with `KeyNotFound` when the key is absent;
otherwise serialize the `Remove` record and delete the index entry.
`kv.rs` line 146 discards the flush's `Result`
(`self.writer.flush();`), so `io.flushOk` is deliberately not
consulted; `uncompacted` is not changed on this path. -/
def KvStore.remove (s : KvStore) (io : IoOutcome) (key : String) :
    KvResult Unit × KvStore :=
  if (lookupA key s.index).isSome then
    if io.writeOk then
      let encoded := encodeCommand (Command.remove key)
      let s1 : KvStore := { s with
        files := appendToFile s.writerGen encoded s.files,
        writerPos := s.writerPos + encoded.length }
      (.ok (), { s1 with index := eraseA key s1.index })
    else (.error (.kvs .Io), s)
  else (.error (.kvs .KeyNotFound), s)

/-- The record-replay loop of `fn load`: stream-decode records from
`s`; a `Set` upserts `index[k] = (g, pos, new_pos - pos)` charging a
superseded entry's `len` to the uncompacted delta; a `Remove` deletes
`index[k]` charging the deleted entry's `len` plus the `Remove`
record's own length.  A record that fails to decode aborts the load
(`cmd?` propagates the `serde_json` error). -/
def loadLoop (g : Nat) (s : List Char) (pos : Nat) (index : List (String × CommandPos))
    (unc : Nat) : KvResult (List (String × CommandPos) × Nat) :=
  if hs : s = [] then .ok (index, unc)
  else
    match h : decodeCommand s with
    | none => .error (.kvs .Serde)
    | some (cmd, rest) =>
      let new_pos := pos + (s.length - rest.length)
      match cmd with
      | .set key _ =>
        let old := lookupA key index
        loadLoop g rest new_pos (insertA key ⟨pos, new_pos - pos, g⟩ index)
          (unc + (match old with | some o => o.len | none => 0))
      | .remove key =>
        let old := lookupA key index
        loadLoop g rest new_pos (eraseA key index)
          (unc + (match old with | some o => o.len | none => 0) + (new_pos - pos))
termination_by s.length
decreasing_by
  all_goals exact decode_consumes h

/-- `fn load(gen, reader, index)`: seek to 0 and replay the whole
file. -/
def load (g : Nat) (content : List Char) (index : List (String × CommandPos)) :
    KvResult (List (String × CommandPos) × Nat) :=
  loadLoop g content 0 index 0

/-- `fn sort_gen_list`: the generation numbers present in the
directory, in ascending order. -/
def sortGenList (files : List (Nat × List Char)) : List Nat :=
  List.insertionSort (· ≤ ·) (files.map Prod.fst)

/-- The replay phase of `KvStore::open`: for each generation in
ascending order, open a reader, `load` the file, and insert the reader
into the fleet. -/
def loadGens : List Nat → List (Nat × List Char) → List Nat →
    List (String × CommandPos) → Nat →
      KvResult (List Nat × List (String × CommandPos) × Nat)
  | [], _, readers, index, unc => .ok (readers, index, unc)
  | g :: gens, files, readers, index, unc =>
    match lookupA g files with
    | none => .error (.kvs .Io)
    | some content =>
      match load g content index with
      | .error e => .error e
      | .ok (index', d) => loadGens gens files (insertGen g readers) index' (unc + d)

/-- `KvStore::open`: replay every existing generation, then create the
fresh generation `last(gens as sorted) + 1` (`1` for an empty
directory), bind the writer to it and insert its reader. -/
def KvStore.openStore (files0 : List (Nat × List Char)) : KvResult KvStore :=
  match loadGens (sortGenList files0) files0 [] [] 0 with
  | .error e => .error e
  | .ok (readers, index, uncompacted) =>
    let current_gen := (sortGenList files0).getLast?.getD 0 + 1
    let fr := newLogFile current_gen files0 readers
    .ok { readers := fr.2.1, files := fr.1,
          writerGen := current_gen, writerPos := fr.2.2,
          index := index, current_gen := current_gen,
          uncompacted := uncompacted }

/-! ## Operation sequences and reachable states -/

/-- One public mutating operation (with its I/O oracle). -/
inductive Op where
  | set (io : IoOutcome) (key value : String)
  | remove (io : IoOutcome) (key : String)
  | compact

/-- Run one operation, keeping the state even when the operation
returns an error (`&mut self` mutations persist across a returned
`Err`). -/
def applyOp (s : KvStore) : Op → KvResult Unit × KvStore
  | .set io k v => s.set io k v
  | .remove io k => s.remove io k
  | .compact => s.compact

/-- Run a sequence of operations left to right. -/
def runOps (s : KvStore) : List Op → KvStore
  | [] => s
  | op :: ops => runOps (applyOp s op).2 ops

/-- States reachable from `open` on a well-formed directory (one file
per generation) by any sequence of operations, successful or not. -/
inductive Reachable : KvStore → Prop where
  | openR (files0 : List (Nat × List Char)) (s : KvStore)
      (hnd : (files0.map Prod.fst).Nodup)
      (h : KvStore.openStore files0 = .ok s) : Reachable s
  | stepR (s : KvStore) (op : Op) (h : Reachable s) : Reachable (applyOp s op).2

/-! ## Association-list lemmas -/

section AList
variable {κ α : Type} [DecidableEq κ]

theorem lookupA_cons_eq {k : κ} {p : κ × α} (hp : p.1 = k) (rest : List (κ × α)) :
    lookupA k (p :: rest) = some p.2 := by
  obtain ⟨k1, v1⟩ := p
  cases hp
  simp [lookupA]

theorem lookupA_cons_self (k : κ) (v : α) (rest : List (κ × α)) :
    lookupA k ((k, v) :: rest) = some v := by
  simp [lookupA]

theorem lookupA_cons_ne {k : κ} {p : κ × α} (hp : p.1 ≠ k) (rest : List (κ × α)) :
    lookupA k (p :: rest) = lookupA k rest := by
  rcases p with ⟨k1, v1⟩; simp [lookupA, hp]

theorem insertA_cons_eq {k : κ} {p : κ × α} (hp : p.1 = k) (v : α) (rest : List (κ × α)) :
    insertA k v (p :: rest) = (k, v) :: rest := by
  obtain ⟨k1, v1⟩ := p
  cases hp
  simp [insertA]

theorem insertA_cons_ne {k : κ} {p : κ × α} (hp : p.1 ≠ k) (v : α) (rest : List (κ × α)) :
    insertA k v (p :: rest) = p :: insertA k v rest := by
  rcases p with ⟨k1, v1⟩; simp [insertA, hp]

theorem eraseA_cons_eq {k : κ} {p : κ × α} (hp : p.1 = k) (rest : List (κ × α)) :
    eraseA k (p :: rest) = rest := by
  obtain ⟨k1, v1⟩ := p
  cases hp
  simp [eraseA]

theorem eraseA_cons_ne {k : κ} {p : κ × α} (hp : p.1 ≠ k) (rest : List (κ × α)) :
    eraseA k (p :: rest) = p :: eraseA k rest := by
  rcases p with ⟨k1, v1⟩; simp [eraseA, hp]

theorem lookupA_insertA_self (k : κ) (v : α) (l : List (κ × α)) :
    lookupA k (insertA k v l) = some v := by
  induction l with
  | nil => simp [insertA, lookupA]
  | cons p rest ih =>
    by_cases h : p.1 = k
    · rw [insertA_cons_eq h, lookupA_cons_self]
    · rw [insertA_cons_ne h, lookupA_cons_ne h, ih]

theorem lookupA_insertA_ne {k k' : κ} (h : k ≠ k') (v : α) (l : List (κ × α)) :
    lookupA k' (insertA k v l) = lookupA k' l := by
  induction l with
  | nil => simp [insertA, lookupA, h]
  | cons p rest ih =>
    by_cases hp : p.1 = k
    · rw [insertA_cons_eq hp, lookupA_cons_ne h,
          lookupA_cons_ne (show p.1 ≠ k' from hp.symm ▸ h)]
    · by_cases hp' : p.1 = k'
      · rw [insertA_cons_ne hp, lookupA_cons_eq hp', lookupA_cons_eq hp']
      · rw [insertA_cons_ne hp, lookupA_cons_ne hp', lookupA_cons_ne hp', ih]

theorem lookupA_eraseA_ne {k k' : κ} (h : k ≠ k') (l : List (κ × α)) :
    lookupA k' (eraseA k l) = lookupA k' l := by
  induction l with
  | nil => simp [eraseA]
  | cons p rest ih =>
    by_cases hp : p.1 = k
    · rw [eraseA_cons_eq hp, lookupA_cons_ne (by rw [hp]; exact h)]
    · by_cases hp' : p.1 = k'
      · rw [eraseA_cons_ne hp, lookupA_cons_eq hp', lookupA_cons_eq hp']
      · rw [eraseA_cons_ne hp, lookupA_cons_ne hp', lookupA_cons_ne hp', ih]

theorem lookupA_eq_none_iff (k : κ) (l : List (κ × α)) :
    lookupA k l = none ↔ k ∉ l.map Prod.fst := by
  induction l with
  | nil => simp [lookupA]
  | cons p rest ih =>
    rw [List.map_cons, List.mem_cons]
    by_cases hp : p.1 = k
    · rw [lookupA_cons_eq hp]
      simp [hp]
    · rw [lookupA_cons_ne hp, ih]
      constructor
      · intro hk hor
        rcases hor with hk2 | hk2
        · exact hp hk2.symm
        · exact hk hk2
      · intro hk hk2
        exact hk (Or.inr hk2)

theorem lookupA_isSome_iff (k : κ) (l : List (κ × α)) :
    (lookupA k l).isSome ↔ k ∈ l.map Prod.fst := by
  rcases h : lookupA k l with _ | v
  · simpa using (lookupA_eq_none_iff k l).mp h
  · simp only [Option.isSome_some, true_iff]
    by_contra hmem
    rw [← lookupA_eq_none_iff] at hmem
    rw [h] at hmem
    cases hmem

theorem lookupA_eq_some_mem {k : κ} {v : α} {l : List (κ × α)}
    (h : lookupA k l = some v) : k ∈ l.map Prod.fst := by
  have := lookupA_isSome_iff k l
  rw [h] at this
  simpa using this

theorem lookupA_eraseA_self {l : List (κ × α)} (hnd : (l.map Prod.fst).Nodup) (k : κ) :
    lookupA k (eraseA k l) = none := by
  induction l with
  | nil => simp [eraseA, lookupA]
  | cons p rest ih =>
    rw [List.map_cons, List.nodup_cons] at hnd
    by_cases hp : p.1 = k
    · rw [eraseA_cons_eq hp, lookupA_eq_none_iff, ← hp]
      exact hnd.1
    · rw [eraseA_cons_ne hp, lookupA_cons_ne hp, ih hnd.2]

theorem mem_keys_insertA (k : κ) (v : α) (l : List (κ × α)) (x : κ) :
    x ∈ (insertA k v l).map Prod.fst ↔ x ∈ l.map Prod.fst ∨ x = k := by
  induction l with
  | nil => simp [insertA]
  | cons p rest ih =>
    by_cases hp : p.1 = k
    · rw [insertA_cons_eq hp]
      rw [List.map_cons, List.mem_cons, List.map_cons, List.mem_cons, hp]
      tauto
    · rw [insertA_cons_ne hp]
      rw [List.map_cons, List.mem_cons, List.map_cons, List.mem_cons, ih]
      tauto

theorem nodup_keys_insertA {l : List (κ × α)} (hnd : (l.map Prod.fst).Nodup)
    (k : κ) (v : α) : ((insertA k v l).map Prod.fst).Nodup := by
  induction l with
  | nil => simp [insertA]
  | cons p rest ih =>
    rw [List.map_cons, List.nodup_cons] at hnd
    by_cases hp : p.1 = k
    · rw [insertA_cons_eq hp, List.map_cons, List.nodup_cons]
      exact ⟨by rw [← hp]; exact hnd.1, hnd.2⟩
    · rw [insertA_cons_ne hp, List.map_cons, List.nodup_cons]
      refine ⟨fun hx => ?_, ih hnd.2⟩
      rw [mem_keys_insertA] at hx
      rcases hx with hx | hx
      · exact hnd.1 hx
      · exact hp hx

theorem mem_keys_eraseA {k : κ} {l : List (κ × α)} {x : κ}
    (hx : x ∈ (eraseA k l).map Prod.fst) : x ∈ l.map Prod.fst := by
  induction l with
  | nil => simpa [eraseA] using hx
  | cons p rest ih =>
    by_cases hp : p.1 = k
    · rw [eraseA_cons_eq hp] at hx
      rw [List.map_cons, List.mem_cons]
      exact Or.inr hx
    · rw [eraseA_cons_ne hp, List.map_cons, List.mem_cons] at hx
      rw [List.map_cons, List.mem_cons]
      rcases hx with hx | hx
      · exact Or.inl hx
      · exact Or.inr (ih hx)

theorem nodup_keys_eraseA {l : List (κ × α)} (hnd : (l.map Prod.fst).Nodup) (k : κ) :
    ((eraseA k l).map Prod.fst).Nodup := by
  induction l with
  | nil => simp [eraseA]
  | cons p rest ih =>
    rw [List.map_cons, List.nodup_cons] at hnd
    by_cases hp : p.1 = k
    · rw [eraseA_cons_eq hp]
      exact hnd.2
    · rw [eraseA_cons_ne hp, List.map_cons, List.nodup_cons]
      exact ⟨fun hx => hnd.1 (mem_keys_eraseA hx), ih hnd.2⟩

theorem insertA_of_not_mem {k : κ} {l : List (κ × α)} (h : k ∉ l.map Prod.fst) (v : α) :
    insertA k v l = l ++ [(k, v)] := by
  induction l with
  | nil => simp [insertA]
  | cons p rest ih =>
    rw [List.map_cons, List.mem_cons] at h
    push_neg at h
    have hp : p.1 ≠ k := fun hh => h.1 hh.symm
    rw [insertA_cons_ne hp, ih h.2, List.cons_append]

theorem eraseA_of_not_mem {k : κ} {l : List (κ × α)} (h : k ∉ l.map Prod.fst) :
    eraseA k l = l := by
  induction l with
  | nil => simp [eraseA]
  | cons p rest ih =>
    rw [List.map_cons, List.mem_cons] at h
    push_neg at h
    have hp : p.1 ≠ k := fun hh => h.1 hh.symm
    rw [eraseA_cons_ne hp, ih h.2]

theorem insertA_append_right {k : κ} {l1 : List (κ × α)} (h : k ∉ l1.map Prod.fst)
    (v : α) (l2 : List (κ × α)) :
    insertA k v (l1 ++ l2) = l1 ++ insertA k v l2 := by
  induction l1 with
  | nil => simp
  | cons p rest ih =>
    rw [List.map_cons, List.mem_cons] at h
    push_neg at h
    have hp : p.1 ≠ k := fun hh => h.1 hh.symm
    rw [List.cons_append, insertA_cons_ne hp, ih h.2, List.cons_append]

theorem eraseA_append_left {k : κ} {l2 : List (κ × α)} (h : k ∉ l2.map Prod.fst)
    (l1 : List (κ × α)) :
    eraseA k (l1 ++ l2) = eraseA k l1 ++ l2 := by
  induction l1 with
  | nil => simp [eraseA_of_not_mem h, eraseA]
  | cons p rest ih =>
    by_cases hp : p.1 = k
    · rw [List.cons_append, eraseA_cons_eq hp, eraseA_cons_eq hp]
    · rw [List.cons_append, eraseA_cons_ne hp, eraseA_cons_ne hp, ih, List.cons_append]

theorem lookupA_append (k : κ) (l1 l2 : List (κ × α)) :
    lookupA k (l1 ++ l2) = ((lookupA k l1).orElse fun _ => lookupA k l2) := by
  induction l1 with
  | nil => simp [lookupA]
  | cons p rest ih =>
    by_cases hp : p.1 = k
    · rw [List.cons_append, lookupA_cons_eq hp, lookupA_cons_eq hp]
      simp
    · rw [List.cons_append, lookupA_cons_ne hp, lookupA_cons_ne hp, ih]

theorem lookupA_of_mem {κ α : Type} [DecidableEq κ] {l : List (κ × α)}
    (hnd : (l.map Prod.fst).Nodup) {e : κ × α} (he : e ∈ l) :
    lookupA e.1 l = some e.2 := by
  induction l with
  | nil => cases he
  | cons p rest ih =>
    rw [List.map_cons, List.nodup_cons] at hnd
    rcases List.mem_cons.mp he with rfl | he2
    · exact lookupA_cons_eq rfl rest
    · by_cases hp : p.1 = e.1
      · exfalso
        rw [hp] at hnd
        exact hnd.1 (List.mem_map_of_mem Prod.fst he2)
      · rw [lookupA_cons_ne hp]
        exact ih hnd.2 he2

end AList

/-! ## Byte-accounting measures and fleet/sort lemmas -/

/-- The `len` of an optional index entry (0 when absent). -/
def entryLen (o : Option CommandPos) : Nat :=
  match o with
  | some cp => cp.len
  | none => 0

/-- Total `len` of all index entries: the number of live bytes. -/
def sumLens (idx : List (String × CommandPos)) : Nat :=
  (idx.map fun p => p.2.len).sum

/-- Total length of all files in the directory. -/
def totalBytes (files : List (Nat × List Char)) : Nat :=
  (files.map fun p => p.2.length).sum

/-- The largest generation present in the directory (0 when empty). -/
def maxGen (files : List (Nat × List Char)) : Nat :=
  (files.map Prod.fst).foldr max 0

theorem sumLens_insertA (k : String) (cp : CommandPos) (idx : List (String × CommandPos)) :
    sumLens (insertA k cp idx) + entryLen (lookupA k idx) = sumLens idx + cp.len := by
  induction idx with
  | nil => simp [insertA, lookupA, sumLens, entryLen]
  | cons p rest ih =>
    by_cases hp : p.1 = k
    · rw [insertA_cons_eq hp, lookupA_cons_eq hp]
      simp [sumLens, entryLen]
      omega
    · rw [insertA_cons_ne hp, lookupA_cons_ne hp]
      simp only [sumLens, List.map_cons, List.sum_cons] at ih ⊢
      omega

theorem sumLens_eraseA (k : String) (idx : List (String × CommandPos)) :
    sumLens (eraseA k idx) + entryLen (lookupA k idx) = sumLens idx := by
  induction idx with
  | nil => simp [eraseA, lookupA, sumLens, entryLen]
  | cons p rest ih =>
    by_cases hp : p.1 = k
    · rw [eraseA_cons_eq hp, lookupA_cons_eq hp]
      simp [sumLens, entryLen]
      omega
    · rw [eraseA_cons_ne hp, lookupA_cons_ne hp]
      simp only [sumLens, List.map_cons, List.sum_cons] at ih ⊢
      omega

theorem totalBytes_insertA (g : Nat) (f : List Char) (fs : List (Nat × List Char)) :
    totalBytes (insertA g f fs) + ((lookupA g fs).getD []).length
      = totalBytes fs + f.length := by
  induction fs with
  | nil => simp [insertA, lookupA, totalBytes]
  | cons p rest ih =>
    by_cases hp : p.1 = g
    · rw [insertA_cons_eq hp, lookupA_cons_eq hp]
      simp [totalBytes]
      omega
    · rw [insertA_cons_ne hp, lookupA_cons_ne hp]
      simp only [totalBytes, List.map_cons, List.sum_cons] at ih ⊢
      omega

theorem totalBytes_eraseA (g : Nat) (fs : List (Nat × List Char)) :
    totalBytes (eraseA g fs) + ((lookupA g fs).getD []).length = totalBytes fs := by
  induction fs with
  | nil => simp [eraseA, lookupA, totalBytes]
  | cons p rest ih =>
    by_cases hp : p.1 = g
    · rw [eraseA_cons_eq hp, lookupA_cons_eq hp]
      simp [totalBytes]
      omega
    · rw [eraseA_cons_ne hp, lookupA_cons_ne hp]
      simp only [totalBytes, List.map_cons, List.sum_cons] at ih ⊢
      omega

theorem totalBytes_append (l1 l2 : List (Nat × List Char)) :
    totalBytes (l1 ++ l2) = totalBytes l1 + totalBytes l2 := by
  simp [totalBytes]

theorem mem_insertGen (g : Nat) (rs : List Nat) (x : Nat) :
    x ∈ insertGen g rs ↔ x = g ∨ x ∈ rs := by
  unfold insertGen
  by_cases h : g ∈ rs
  · simp only [if_pos h]
    constructor
    · exact Or.inr
    · rintro (rfl | hx)
      · exact h
      · exact hx
  · simp [if_neg h]

theorem nodup_insertGen {rs : List Nat} (h : rs.Nodup) (g : Nat) :
    (insertGen g rs).Nodup := by
  unfold insertGen
  by_cases hg : g ∈ rs
  · simpa [if_pos hg]
  · simp [if_neg hg, h, hg]

theorem getLastD_mem : ∀ (l : List Nat), l ≠ [] → l.getLast?.getD 0 ∈ l := by
  intro l
  induction l with
  | nil => simp
  | cons a t ih =>
    intro _
    rcases t with _ | ⟨b, t2⟩
    · simp [List.getLast?]
    · rw [List.getLast?_cons_cons]
      exact List.mem_cons_of_mem a (ih (by simp))

theorem sorted_le_getLastD : ∀ {l : List Nat}, l.Sorted (· ≤ ·) →
    ∀ x ∈ l, x ≤ l.getLast?.getD 0 := by
  intro l
  induction l with
  | nil => simp
  | cons a t ih =>
    intro hs x hx
    rw [List.sorted_cons] at hs
    rcases t with _ | ⟨b, t2⟩
    · simp at hx
      subst hx
      simp [List.getLast?]
    · rw [List.getLast?_cons_cons]
      rcases List.mem_cons.mp hx with rfl | hx2
      · have hmem := getLastD_mem (b :: t2) (by simp)
        exact hs.1 _ hmem
      · exact ih hs.2 x hx2

theorem le_foldr_max {l : List Nat} {x : Nat} (hx : x ∈ l) : x ≤ l.foldr max 0 := by
  induction l with
  | nil => cases hx
  | cons a t ih =>
    rcases List.mem_cons.mp hx with rfl | hx2
    · simp
    · simp only [List.foldr_cons]
      exact le_trans (ih hx2) (le_max_right a _)

theorem foldr_max_le {l : List Nat} {b : Nat} (h : ∀ x ∈ l, x ≤ b) : l.foldr max 0 ≤ b := by
  induction l with
  | nil => simp
  | cons a t ih =>
    simp only [List.foldr_cons, max_le_iff]
    exact ⟨h a (by simp), ih fun x hx => h x (List.mem_cons_of_mem a hx)⟩

theorem mem_sortGenList (files : List (Nat × List Char)) (x : Nat) :
    x ∈ sortGenList files ↔ x ∈ files.map Prod.fst :=
  List.mem_insertionSort (· ≤ ·)

theorem nodup_sortGenList {files : List (Nat × List Char)}
    (h : (files.map Prod.fst).Nodup) : (sortGenList files).Nodup :=
  (List.perm_insertionSort _ _).nodup_iff.mpr h

/-- The last element of the sorted generation list is the maximal
generation present (`gen_list.last().unwrap_or(&0)`). -/
theorem sortGenList_getLastD (files : List (Nat × List Char)) :
    (sortGenList files).getLast?.getD 0 = maxGen files := by
  apply le_antisymm
  · rcases h : sortGenList files with _ | ⟨a, t⟩
    · simp [h]
    · have hne : sortGenList files ≠ [] := by rw [h]; simp
      have hmem := getLastD_mem _ hne
      rw [mem_sortGenList] at hmem
      rw [h] at hmem
      exact le_foldr_max hmem
  · apply foldr_max_le
    intro x hx
    exact sorted_le_getLastD (List.sorted_insertionSort _ _) x
      ((mem_sortGenList files x).mpr hx)

theorem mem_sortGenList_le_max {files : List (Nat × List Char)} {g : Nat}
    (hg : g ∈ sortGenList files) : g ≤ maxGen files :=
  le_foldr_max ((mem_sortGenList files g).mp hg)

theorem lookupA_maxGen_succ (files : List (Nat × List Char)) :
    lookupA (maxGen files + 1) files = none := by
  rw [lookupA_eq_none_iff]
  intro hmem
  have := le_foldr_max (l := files.map Prod.fst) hmem
  unfold maxGen at this
  omega

/-! ## The store invariant -/

/-- Contents of file `g` (empty when absent). -/
def fileOf (s : KvStore) (g : Nat) : List Char := (lookupA g s.files).getD []

/-- The record bytes an index entry points at. -/
def segOf (s : KvStore) (cp : CommandPos) : List Char :=
  ((fileOf s cp.gen).drop cp.pos).take cp.len

/-- The internal invariants of `KvStore`, maintained between public
operations (spec §3 I1, I2 and the flush discipline):
the writer is bound to the current generation and positioned at the
end of its file; the current generation has a reader; readers are
bounded by the current generation; fleet, directory and index have
unique keys; one file per reader and vice versa; every index entry
points into an existing reader's file, in bounds. -/
structure Inv (s : KvStore) : Prop where
  wg : s.writerGen = s.current_gen
  cr : s.current_gen ∈ s.readers
  rle : ∀ g ∈ s.readers, g ≤ s.current_gen
  rnd : s.readers.Nodup
  fnd : (s.files.map Prod.fst).Nodup
  rf : ∀ g : Nat, g ∈ s.readers ↔ g ∈ s.files.map Prod.fst
  ind : (s.index.map Prod.fst).Nodup
  ig : ∀ k cp, lookupA k s.index = some cp → cp.gen ∈ s.readers
  ib : ∀ k cp, lookupA k s.index = some cp → cp.pos + cp.len ≤ (fileOf s cp.gen).length
  wp : s.writerPos = (fileOf s s.current_gen).length

theorem droptake_append {f t : List Char} {pos len : Nat} (h : pos + len ≤ f.length) :
    (((f ++ t).drop pos).take len) = ((f.drop pos).take len) := by
  rw [List.drop_append_of_le_length (by omega)]
  rw [List.take_append_of_le_length (by simp; omega)]

theorem drop_length_append (f t : List Char) : (f ++ t).drop f.length = t := by
  simpa using List.drop_left f t

theorem take_length_append (f t : List Char) : (f ++ t).take f.length = f := by
  simpa using List.take_left f t

/-! ## `set` and `remove`: invariant preservation and `get` behavior -/

theorem setRaw_def (s : KvStore) (key value : String) :
    s.setRaw key value =
      { s with
        files := appendToFile s.writerGen (encodeCommand (Command.set key value)) s.files,
        writerPos := s.writerPos + (encodeCommand (Command.set key value)).length,
        index := insertA key
          ⟨s.writerPos, (encodeCommand (Command.set key value)).length, s.current_gen⟩
          s.index,
        uncompacted := s.uncompacted + entryLen (lookupA key s.index) } := by
  unfold KvStore.setRaw
  simp only [Nat.add_sub_cancel_left]
  rcases h : lookupA key s.index with _ | cp <;> simp [entryLen, h]

/-- The file of generation `g` after appending to the current file. -/
theorem fileOf_appendToFile_self (s : KvStore) (enc : List Char) (g : Nat) :
    (lookupA g (appendToFile g enc s.files)).getD [] = fileOf s g ++ enc := by
  unfold appendToFile fileOf
  rw [lookupA_insertA_self]
  rfl

theorem fileOf_appendToFile_ne (s : KvStore) (enc : List Char) {g g' : Nat} (h : g ≠ g') :
    (lookupA g' (appendToFile g enc s.files)).getD [] = fileOf s g' := by
  unfold appendToFile fileOf
  rw [lookupA_insertA_ne h]

/-- Generic preservation: appending bytes to the current file (with
the writer advanced accordingly) preserves the invariant. -/
theorem inv_append (s : KvStore) (enc : List Char) (hInv : Inv s) :
    Inv { s with files := appendToFile s.writerGen enc s.files,
                 writerPos := s.writerPos + enc.length } := by
  obtain ⟨wg, cr, rle, rnd, fnd, rf, ind, ig, ib, wp⟩ := hInv
  constructor
  case wg => exact wg
  case cr => exact cr
  case rle => exact rle
  case rnd => exact rnd
  case fnd => exact nodup_keys_insertA fnd _ _
  case rf =>
    intro g
    show g ∈ s.readers ↔ g ∈ (appendToFile s.writerGen enc s.files).map Prod.fst
    rw [rf g]
    unfold appendToFile
    rw [mem_keys_insertA]
    constructor
    · exact Or.inl
    · rintro (hx | rfl)
      · exact hx
      · exact (rf s.writerGen).mp (by rw [wg]; exact cr)
  case ind => exact ind
  case ig => exact ig
  case ib =>
    intro k cp hk
    have hb := ib k cp hk
    show cp.pos + cp.len
      ≤ ((lookupA cp.gen (appendToFile s.writerGen enc s.files)).getD []).length
    by_cases hg : s.writerGen = cp.gen
    · rw [← hg, fileOf_appendToFile_self]
      rw [List.length_append]
      have hb2 : cp.pos + cp.len ≤ (fileOf s s.writerGen).length := by rw [hg]; exact hb
      omega
    · rw [fileOf_appendToFile_ne s enc hg]
      exact hb
  case wp =>
    show s.writerPos + enc.length
      = ((lookupA s.current_gen (appendToFile s.writerGen enc s.files)).getD []).length
    rw [wg, fileOf_appendToFile_self]
    rw [List.length_append]
    omega

/-- Characterization of `get` through `segOf` (definitional). -/
theorem get_spec (s : KvStore) (k : String) :
    s.get k = match lookupA k s.index with
      | none => .ok none
      | some cp =>
        if cp.gen ∈ s.readers then
          match decodeCommand (segOf s cp) with
          | some (.set _ v, []) => .ok (some v)
          | some (.remove _, []) => .error (.kvs .UnexpectedCommandType)
          | _ => .error (.kvs .Serde)
        else .error .panic := rfl

/-- Generic preservation: appending to the current file does not
change any `get` result (index entries stay inside the unchanged
prefix of the file). -/
theorem get_append (s : KvStore) (enc : List Char) (hInv : Inv s) (k : String) :
    KvStore.get { s with files := appendToFile s.writerGen enc s.files,
                         writerPos := s.writerPos + enc.length } k = s.get k := by
  obtain ⟨wg, cr, rle, rnd, fnd, rf, ind, ig, ib, wp⟩ := hInv
  rw [get_spec, get_spec]
  show (match lookupA k s.index with
      | none => (.ok none : KvResult (Option String))
      | some cp =>
        if cp.gen ∈ s.readers then
          match decodeCommand ((((lookupA cp.gen
              (appendToFile s.writerGen enc s.files)).getD []).drop cp.pos).take cp.len) with
          | some (.set _ v, []) => .ok (some v)
          | some (.remove _, []) => .error (.kvs .UnexpectedCommandType)
          | _ => .error (.kvs .Serde)
        else .error .panic) = _
  rcases hk : lookupA k s.index with _ | cp
  · rfl
  · show (if cp.gen ∈ s.readers then _ else _) = (if cp.gen ∈ s.readers then _ else _)
    by_cases hr : cp.gen ∈ s.readers
    · rw [if_pos hr, if_pos hr]
      have hb := ib k cp hk
      by_cases hg : s.writerGen = cp.gen
      · rw [← hg, fileOf_appendToFile_self]
        have hb2 : cp.pos + cp.len ≤ (fileOf s s.writerGen).length := by rw [hg]; exact hb
        rw [droptake_append hb2]
        rw [hg]
        rfl
      · rw [fileOf_appendToFile_ne s enc hg]
        rfl
    · rw [if_neg hr, if_neg hr]

theorem segOf_congr {s1 s2 : KvStore} (hf : s1.files = s2.files) (cp : CommandPos) :
    segOf s1 cp = segOf s2 cp := by
  unfold segOf fileOf
  rw [hf]

theorem get_congr (s1 s2 : KvStore) (k : String)
    (hidx : lookupA k s1.index = lookupA k s2.index)
    (hr : s1.readers = s2.readers) (hf : s1.files = s2.files) :
    s1.get k = s2.get k := by
  rw [get_spec, get_spec, hidx, hr]
  simp only [segOf_congr hf]

/-- `setRaw` preserves the invariant. -/
theorem inv_setRaw (s : KvStore) (key value : String) (hInv : Inv s) :
    Inv (s.setRaw key value) := by
  have hA := inv_append s (encodeCommand (Command.set key value)) hInv
  rw [setRaw_def]
  obtain ⟨wg, cr, rle, rnd, fnd, rf, ind, ig, ib, wp⟩ := hA
  constructor
  case wg => exact wg
  case cr => exact cr
  case rle => exact rle
  case rnd => exact rnd
  case fnd => exact fnd
  case rf => exact rf
  case ind => exact nodup_keys_insertA hInv.ind _ _
  case ig =>
    intro k cp hk
    by_cases hkk : key = k
    · subst hkk
      rw [show lookupA key (insertA key
            ⟨s.writerPos, (encodeCommand (Command.set key value)).length, s.current_gen⟩
            s.index) = some ⟨s.writerPos, (encodeCommand (Command.set key value)).length,
            s.current_gen⟩ from lookupA_insertA_self _ _ _] at hk
      cases hk
      exact hInv.cr
    · rw [show lookupA k (insertA key
            ⟨s.writerPos, (encodeCommand (Command.set key value)).length, s.current_gen⟩
            s.index) = lookupA k s.index from lookupA_insertA_ne hkk _ _] at hk
      exact ig k cp hk
  case ib =>
    intro k cp hk
    by_cases hkk : key = k
    · subst hkk
      rw [show lookupA key (insertA key
            ⟨s.writerPos, (encodeCommand (Command.set key value)).length, s.current_gen⟩
            s.index) = some ⟨s.writerPos, (encodeCommand (Command.set key value)).length,
            s.current_gen⟩ from lookupA_insertA_self _ _ _] at hk
      cases hk
      exact le_of_eq wp
    · rw [show lookupA k (insertA key
            ⟨s.writerPos, (encodeCommand (Command.set key value)).length, s.current_gen⟩
            s.index) = lookupA k s.index from lookupA_insertA_ne hkk _ _] at hk
      exact ib k cp hk
  case wp => exact wp

/-- The body of `get` after a successful index lookup. -/
def getLookup (s : KvStore) (cp : CommandPos) : KvResult (Option String) :=
  if cp.gen ∈ s.readers then
    match decodeCommand (segOf s cp) with
    | some (.set _ v, []) => .ok (some v)
    | some (.remove _, []) => .error (.kvs .UnexpectedCommandType)
    | _ => .error (.kvs .Serde)
  else .error .panic

theorem get_eq_none {s : KvStore} {k : String} (h : lookupA k s.index = none) :
    s.get k = .ok none := by
  unfold KvStore.get
  rw [h]

theorem get_eq_some {s : KvStore} {k : String} {cp : CommandPos}
    (h : lookupA k s.index = some cp) : s.get k = getLookup s cp := by
  unfold KvStore.get getLookup
  rw [h]
  rfl

/-- `get` on the key just written returns the value just written. -/
theorem setRaw_get_self (s : KvStore) (key value : String) (hInv : Inv s) :
    (s.setRaw key value).get key = .ok (some value) := by
  rw [setRaw_def]
  rw [get_eq_some (show lookupA key (insertA key
      ⟨s.writerPos, (encodeCommand (Command.set key value)).length, s.current_gen⟩
      s.index) = some ⟨s.writerPos, (encodeCommand (Command.set key value)).length,
      s.current_gen⟩ from lookupA_insertA_self _ _ _)]
  unfold getLookup segOf fileOf
  dsimp only
  rw [if_pos hInv.cr]
  rw [hInv.wg, fileOf_appendToFile_self]
  rw [show s.writerPos = (fileOf s s.current_gen).length from hInv.wp]
  rw [drop_length_append, List.take_length]
  have hdec := decode_encode (Command.set key value) []
  rw [List.append_nil] at hdec
  rw [hdec]

/-- `setRaw` leaves every other key's `get` unchanged. -/
theorem setRaw_get_other (s : KvStore) (key value : String) (hInv : Inv s)
    {k : String} (hne : key ≠ k) :
    (s.setRaw key value).get k = s.get k := by
  rw [show (s.setRaw key value).get k
      = KvStore.get { s with
          files := appendToFile s.writerGen (encodeCommand (Command.set key value)) s.files,
          writerPos := s.writerPos + (encodeCommand (Command.set key value)).length } k by
    rw [setRaw_def]
    exact get_congr _ _ k (lookupA_insertA_ne hne _ _) rfl rfl]
  exact get_append s _ hInv k

/-- The state after a successful `remove` (write succeeded; the
ignored flush plays no role). -/
def removeRawState (s : KvStore) (key : String) : KvStore :=
  { s with
    files := appendToFile s.writerGen (encodeCommand (Command.remove key)) s.files,
    writerPos := s.writerPos + (encodeCommand (Command.remove key)).length,
    index := eraseA key s.index }

theorem remove_eq_of_mem (s : KvStore) (io : IoOutcome) (key : String)
    (hmem : (lookupA key s.index).isSome) (hw : io.writeOk = true) :
    s.remove io key = (.ok (), removeRawState s key) := by
  unfold KvStore.remove
  rw [if_pos hmem, hw]
  rfl

theorem inv_removeRaw (s : KvStore) (key : String) (hInv : Inv s) :
    Inv (removeRawState s key) := by
  have hA := inv_append s (encodeCommand (Command.remove key)) hInv
  obtain ⟨wg, cr, rle, rnd, fnd, rf, ind, ig, ib, wp⟩ := hA
  constructor
  case wg => exact wg
  case cr => exact cr
  case rle => exact rle
  case rnd => exact rnd
  case fnd => exact fnd
  case rf => exact rf
  case ind => exact nodup_keys_eraseA hInv.ind _
  case ig =>
    intro k cp hk
    by_cases hkk : key = k
    · subst hkk
      rw [show lookupA key (removeRawState s key).index = none from
        lookupA_eraseA_self hInv.ind key] at hk
      cases hk
    · rw [show lookupA k (removeRawState s key).index = lookupA k s.index from
        lookupA_eraseA_ne hkk _] at hk
      exact ig k cp hk
  case ib =>
    intro k cp hk
    by_cases hkk : key = k
    · subst hkk
      rw [show lookupA key (removeRawState s key).index = none from
        lookupA_eraseA_self hInv.ind key] at hk
      cases hk
    · rw [show lookupA k (removeRawState s key).index = lookupA k s.index from
        lookupA_eraseA_ne hkk _] at hk
      exact ib k cp hk
  case wp => exact wp

theorem removeRaw_get_self (s : KvStore) (key : String) (hInv : Inv s) :
    (removeRawState s key).get key = .ok none :=
  get_eq_none (lookupA_eraseA_self hInv.ind key)

theorem removeRaw_get_other (s : KvStore) (key : String) (hInv : Inv s)
    {k : String} (hne : key ≠ k) :
    (removeRawState s key).get k = s.get k := by
  rw [show (removeRawState s key).get k
      = KvStore.get { s with
          files := appendToFile s.writerGen (encodeCommand (Command.remove key)) s.files,
          writerPos := s.writerPos + (encodeCommand (Command.remove key)).length } k from
    get_congr _ _ k (lookupA_eraseA_ne hne _) rfl rfl]
  exact get_append s _ hInv k

/-! ## Compaction -/

/-- The record bytes entry `cp` points at within directory `F`. -/
def segF (F : List (Nat × List Char)) (cp : CommandPos) : List Char :=
  (((lookupA cp.gen F).getD []).drop cp.pos).take cp.len

theorem segOf_eq_segF (s : KvStore) (cp : CommandPos) : segOf s cp = segF s.files cp := rfl

theorem compactLoop_cons_pos (R : List Nat) (F : List (Nat × List Char)) (cgen : Nat)
    (k : String) (cp : CommandPos) (rest : List (String × CommandPos)) (p : Nat)
    (hR : cp.gen ∈ R) :
    compactLoop R F cgen ((k, cp) :: rest) p =
      match compactLoop R F cgen rest (p + (segF F cp).length) with
      | some (entries, content) =>
        some ((k, ⟨p, (segF F cp).length, cgen⟩) :: entries, segF F cp ++ content)
      | none => none := by
  conv_lhs => rw [compactLoop]
  rw [if_pos hR]
  rfl

/-- Complete characterization of a successful compaction copy loop:
it succeeds when every entry's generation has a reader; the rewritten
index has the same keys; the copied content is exactly the
concatenation of the copied segments; and, placed after any prefix of
length `p`, each rewritten entry points at a byte-identical copy of
the bytes its original entry pointed at. -/
theorem compactLoop_some (R : List Nat) (F : List (Nat × List Char)) (cgen : Nat) :
    ∀ (entries : List (String × CommandPos)) (p : Nat),
    (∀ e ∈ entries, e.2.gen ∈ R) →
    ∃ entries' content,
      compactLoop R F cgen entries p = some (entries', content) ∧
      entries'.map Prod.fst = entries.map Prod.fst ∧
      sumLens entries' = content.length ∧
      (∀ k, lookupA k entries = none → lookupA k entries' = none) ∧
      (∀ k cp, lookupA k entries = some cp →
        ∃ cp', lookupA k entries' = some cp' ∧ cp'.gen = cgen ∧
          cp'.pos + cp'.len ≤ p + content.length ∧
          cp'.len = (segF F cp).length ∧
          (∀ pre : List Char, pre.length = p →
            (((pre ++ content).drop cp'.pos).take cp'.len) = segF F cp)) := by
  intro entries
  induction entries with
  | nil =>
    intro p _
    refine ⟨[], [], rfl, rfl, rfl, fun k _ => rfl, fun k cp hk => ?_⟩
    simp [lookupA] at hk
  | cons e rest ih =>
    intro p hg
    obtain ⟨k0, cp0⟩ := e
    have hR : cp0.gen ∈ R := hg (k0, cp0) (by simp)
    obtain ⟨rest', restC, hiheq, hkeys, hsum, hnone, hsome⟩ :=
      ih (p + (segF F cp0).length) (fun e he => hg e (List.mem_cons_of_mem _ he))
    refine ⟨(k0, ⟨p, (segF F cp0).length, cgen⟩) :: rest', segF F cp0 ++ restC,
      ?_, ?_, ?_, ?_, ?_⟩
    · rw [compactLoop_cons_pos R F cgen k0 cp0 rest p hR, hiheq]
    · simp [hkeys]
    · simp only [sumLens, List.map_cons, List.sum_cons, List.length_append]
      have : sumLens rest' = restC.length := hsum
      unfold sumLens at this
      omega
    · intro k hk
      by_cases hk0 : k0 = k
      · rw [lookupA_cons_eq hk0] at hk
        cases hk
      · rw [lookupA_cons_ne hk0] at hk
        rw [lookupA_cons_ne hk0]
        exact hnone k hk
    · intro k cp hk
      by_cases hk0 : k0 = k
      · rw [lookupA_cons_eq hk0] at hk
        cases hk
        refine ⟨⟨p, (segF F cp0).length, cgen⟩, ?_, rfl, ?_, rfl, ?_⟩
        · exact lookupA_cons_eq hk0 rest'
        · simp only [List.length_append]
          omega
        · intro pre hpre
          show (((pre ++ (segF F cp0 ++ restC)).drop p).take (segF F cp0).length) = segF F cp0
          rw [← hpre, drop_length_append]
          exact take_length_append _ _
      · rw [lookupA_cons_ne hk0] at hk
        obtain ⟨cp', hl, hgen, hbound, hlen, hext⟩ := hsome k cp hk
        refine ⟨cp', ?_, hgen, ?_, hlen, ?_⟩
        · rw [lookupA_cons_ne hk0]
          exact hl
        · simp only [List.length_append]
          omega
        · intro pre hpre
          have := hext (pre ++ segF F cp0) (by simp [hpre])
          rw [List.append_assoc] at this
          exact this

theorem mem_keys_eraseA_iff {κ α : Type} [DecidableEq κ] {fs : List (κ × α)}
    (hnd : (fs.map Prod.fst).Nodup) (g x : κ) :
    x ∈ (eraseA g fs).map Prod.fst ↔ x ∈ fs.map Prod.fst ∧ x ≠ g := by
  induction fs with
  | nil => simp [eraseA]
  | cons p rest ih =>
    rw [List.map_cons, List.nodup_cons] at hnd
    by_cases hp : p.1 = g
    · rw [eraseA_cons_eq hp, List.map_cons, List.mem_cons]
      constructor
      · intro hx
        refine ⟨Or.inr hx, fun hxg => ?_⟩
        subst hxg
        rw [← hp] at hx
        exact hnd.1 hx
      · rintro ⟨rfl | hx, hxg⟩
        · exact absurd hp hxg
        · exact hx
    · rw [eraseA_cons_ne hp]
      simp only [List.map_cons, List.mem_cons]
      rw [ih hnd.2]
      constructor
      · rintro (rfl | ⟨hx, hxg⟩)
        · exact ⟨Or.inl rfl, fun hh => hp hh⟩
        · exact ⟨Or.inr hx, hxg⟩
      · rintro ⟨rfl | hx, hxg⟩
        · exact Or.inl rfl
        · exact Or.inr ⟨hx, hxg⟩

/-- Deleting every stale file: folding `eraseA` over exactly the key
set of the old directory leaves exactly the freshly created files. -/
theorem eraseFold_all : ∀ (gs : List Nat) (fs tail : List (Nat × List Char)),
    (fs.map Prod.fst).Nodup → gs.Nodup →
    (∀ g : Nat, g ∈ gs ↔ g ∈ fs.map Prod.fst) →
    (∀ g ∈ gs, g ∉ tail.map Prod.fst) →
    gs.foldl (fun a g => eraseA g a) (fs ++ tail) = tail := by
  intro gs
  induction gs with
  | nil =>
    intro fs tail hnd _ hiff _
    have : fs.map Prod.fst = [] := by
      rcases h : fs.map Prod.fst with _ | ⟨a, t⟩
      · rfl
      · exfalso
        have := (hiff a).mpr (by rw [h]; simp)
        cases this
    have hfs : fs = [] := by
      rcases fs with _ | ⟨p, r⟩
      · rfl
      · simp at this
    rw [hfs]
    rfl
  | cons g gs' ih =>
    intro fs tail hnd hgnd hiff htail
    rw [List.nodup_cons] at hgnd
    rw [List.foldl_cons]
    rw [eraseA_append_left (htail g (by simp))]
    refine ih (eraseA g fs) tail (nodup_keys_eraseA hnd g) hgnd.2 ?_
      (fun g' hg' => htail g' (List.mem_cons_of_mem g hg'))
    intro g'
    rw [mem_keys_eraseA_iff hnd g g']
    constructor
    · intro hg'
      refine ⟨(hiff g').mp (List.mem_cons_of_mem g hg'), fun hh => ?_⟩
      subst hh
      exact hgnd.1 hg'
    · rintro ⟨hmem, hne⟩
      have := (hiff g').mpr hmem
      rcases List.mem_cons.mp this with rfl | hh
      · exact absurd rfl hne
      · exact hh

theorem filter_eq_self_of_all {l : List Nat} {p : Nat → Bool}
    (h : ∀ x ∈ l, p x = true) : l.filter p = l :=
  List.filter_eq_self.mpr h

theorem filter_eq_nil_of_none {l : List Nat} {p : Nat → Bool}
    (h : ∀ x ∈ l, p x = false) : l.filter p = [] := by
  induction l with
  | nil => rfl
  | cons a t ih =>
    rw [List.filter_cons, h a (by simp)]
    simp only [Bool.false_eq_true, if_false]
    exact ih fun x hx => h x (List.mem_cons_of_mem a hx)

/-- Characterization of a successful `compact` on an invariant-holding
state: the copy loop succeeds, old files and readers are dropped, the
result is exactly the two fresh generations, and every rewritten index
entry points at a byte-identical copy of its old record. -/
theorem compact_spec (s : KvStore) (hInv : Inv s) :
    ∃ index' content,
      s.compact = (.ok (), ⟨[s.current_gen + 1, s.current_gen + 2],
        [(s.current_gen + 2, []), (s.current_gen + 1, content)],
        s.current_gen + 2, 0, index', s.current_gen + 2, 0⟩) ∧
      index'.map Prod.fst = s.index.map Prod.fst ∧
      sumLens index' = content.length ∧
      (∀ k, lookupA k s.index = none → lookupA k index' = none) ∧
      (∀ k cp, lookupA k s.index = some cp →
        ∃ cp', lookupA k index' = some cp' ∧ cp'.gen = s.current_gen + 1 ∧
          cp'.pos + cp'.len ≤ content.length ∧
          ((content.drop cp'.pos).take cp'.len) = segOf s cp) := by
  have h2m : s.current_gen + 2 ∉ s.files.map Prod.fst := by
    intro h
    have := hInv.rle _ ((hInv.rf _).mpr h)
    omega
  have h1fm : s.current_gen + 1 ∉ s.files.map Prod.fst := by
    intro h
    have := hInv.rle _ ((hInv.rf _).mpr h)
    omega
  have h2r : s.current_gen + 2 ∉ s.readers := by
    intro h
    have := hInv.rle _ h
    omega
  have h1r : s.current_gen + 1 ∉ s.readers := by
    intro h
    have := hInv.rle _ h
    omega
  have hlook2 : lookupA (s.current_gen + 2) s.files = none :=
    (lookupA_eq_none_iff _ _).mpr h2m
  have e1 : newLogFile (s.current_gen + 2) s.files s.readers
      = (s.files ++ [(s.current_gen + 2, [])], (s.current_gen + 2) :: s.readers, 0) := by
    unfold newLogFile
    rw [hlook2]
    simp only [Option.getD_none]
    rw [insertA_of_not_mem h2m]
    unfold insertGen
    rw [if_neg h2r]
    rfl
  have h1m : s.current_gen + 1 ∉ (s.files ++ [(s.current_gen + 2, [])]).map Prod.fst := by
    rw [List.map_append, List.mem_append]
    rintro (h | h)
    · exact h1fm h
    · simp at h
  have hlook1 : lookupA (s.current_gen + 1) (s.files ++ [(s.current_gen + 2, [])]) = none :=
    (lookupA_eq_none_iff _ _).mpr h1m
  have e2 : newLogFile (s.current_gen + 1) (s.files ++ [(s.current_gen + 2, [])])
      ((s.current_gen + 2) :: s.readers)
      = (s.files ++ [(s.current_gen + 2, []), (s.current_gen + 1, [])],
         (s.current_gen + 1) :: (s.current_gen + 2) :: s.readers, 0) := by
    unfold newLogFile
    rw [hlook1]
    simp only [Option.getD_none]
    rw [insertA_of_not_mem h1m]
    unfold insertGen
    rw [if_neg (by
      intro h
      rcases List.mem_cons.mp h with h | h
      · omega
      · exact h1r h)]
    rw [List.append_assoc]
    rfl
  obtain ⟨index', content, hloop, hkeys, hsum, hnone, hsome⟩ :=
    compactLoop_some ((s.current_gen + 1) :: (s.current_gen + 2) :: s.readers)
      (s.files ++ [(s.current_gen + 2, []), (s.current_gen + 1, [])])
      (s.current_gen + 1) s.index 0
      (fun e he => by
        have := hInv.ig e.1 e.2 (lookupA_of_mem hInv.ind he)
        exact List.mem_cons_of_mem _ (List.mem_cons_of_mem _ this))
  have hext_files : ∀ {g : Nat}, g ∈ s.readers →
      lookupA g (s.files ++ [(s.current_gen + 2, ([] : List Char)),
        (s.current_gen + 1, [])]) = lookupA g s.files := by
    intro g hg
    rcases hf : lookupA g s.files with _ | f
    · exfalso
      rw [lookupA_eq_none_iff] at hf
      exact hf ((hInv.rf g).mp hg)
    · rw [lookupA_append, hf]
      rfl
  refine ⟨index', content, ?_, hkeys, hsum, hnone, ?_⟩
  · have hne21 : ¬ (s.current_gen + 2 = s.current_gen + 1) := by omega
    have hlookc : lookupA (s.current_gen + 1)
        (s.files ++ [(s.current_gen + 2, []), (s.current_gen + 1, [])]) = some [] := by
      rw [lookupA_append]
      rw [(lookupA_eq_none_iff _ _).mpr h1fm]
      simp [lookupA, hne21]
    have e3 : appendToFile (s.current_gen + 1) content
        (s.files ++ [(s.current_gen + 2, []), (s.current_gen + 1, [])])
        = s.files ++ [(s.current_gen + 2, []), (s.current_gen + 1, content)] := by
      unfold appendToFile
      rw [hlookc]
      simp only [Option.getD_some, List.nil_append]
      rw [insertA_append_right h1fm]
      simp [insertA, hne21]
    have estale : ((s.current_gen + 1) :: (s.current_gen + 2) :: s.readers).filter
        (fun g => g < s.current_gen + 1) = s.readers := by
      rw [List.filter_cons, List.filter_cons]
      rw [if_neg (by simp), if_neg (by simp)]
      exact filter_eq_self_of_all fun g hg => by
        have := hInv.rle g hg
        simp
        omega
    have ereaders : ((s.current_gen + 1) :: (s.current_gen + 2) :: s.readers).filter
        (fun g => ¬ g < s.current_gen + 1) = [s.current_gen + 1, s.current_gen + 2] := by
      rw [List.filter_cons, List.filter_cons]
      rw [if_pos (by simp), if_pos (by simp)]
      rw [filter_eq_nil_of_none fun g hg => by
        have := hInv.rle g hg
        simp
        omega]
    have efold : s.readers.foldl (fun fs g => eraseA g fs)
        (s.files ++ [(s.current_gen + 2, []), (s.current_gen + 1, content)])
        = [(s.current_gen + 2, []), (s.current_gen + 1, content)] := by
      refine eraseFold_all s.readers s.files _ hInv.fnd hInv.rnd hInv.rf ?_
      intro g hg
      have := hInv.rle g hg
      simp
      omega
    show KvStore.compact s = _
    unfold KvStore.compact
    simp only [e1, e2, hloop, e3, estale, ereaders, efold]
  · intro k cp hk
    obtain ⟨cp', hl', hgen, hb, hlen, hext⟩ := hsome k cp hk
    refine ⟨cp', hl', hgen, by simpa using hb, ?_⟩
    have := hext [] rfl
    rw [List.nil_append] at this
    rw [this]
    unfold segF
    rw [segOf_eq_segF]
    unfold segF
    rw [hext_files (hInv.ig k cp hk)]

/-! ## Replay (`load`) lemmas -/

theorem loadLoop_nil (g : Nat) (pos : Nat) (index : List (String × CommandPos)) (unc : Nat) :
    loadLoop g [] pos index unc = .ok (index, unc) := by
  rw [loadLoop]
  rw [dif_pos rfl]

theorem loadLoop_err (g : Nat) (s : List Char) (pos : Nat)
    (index : List (String × CommandPos)) (unc : Nat)
    (hs : s ≠ []) (hdec : decodeCommand s = none) :
    loadLoop g s pos index unc = .error (.kvs .Serde) := by
  conv_lhs => rw [loadLoop]
  rw [dif_neg hs]
  split
  · rfl
  next cmd rest2 heq => rw [hdec] at heq; cases heq

theorem loadLoop_set_step (g : Nat) (s : List Char) (pos : Nat)
    (index : List (String × CommandPos)) (unc : Nat) (key value : String) (rest : List Char)
    (hs : s ≠ []) (hdec : decodeCommand s = some (.set key value, rest)) :
    loadLoop g s pos index unc = loadLoop g rest (pos + (s.length - rest.length))
      (insertA key ⟨pos, (pos + (s.length - rest.length)) - pos, g⟩ index)
      (unc + (match lookupA key index with | some o => o.len | none => 0)) := by
  conv_lhs => rw [loadLoop]
  rw [dif_neg hs]
  split
  next heq => rw [heq] at hdec; cases hdec
  next cmd rest2 heq =>
    rw [hdec] at heq
    cases heq
    rfl

theorem loadLoop_remove_step (g : Nat) (s : List Char) (pos : Nat)
    (index : List (String × CommandPos)) (unc : Nat) (key : String) (rest : List Char)
    (hs : s ≠ []) (hdec : decodeCommand s = some (.remove key, rest)) :
    loadLoop g s pos index unc = loadLoop g rest (pos + (s.length - rest.length))
      (eraseA key index)
      (unc + (match lookupA key index with | some o => o.len | none => 0)
        + ((pos + (s.length - rest.length)) - pos)) := by
  conv_lhs => rw [loadLoop]
  rw [dif_neg hs]
  split
  next heq => rw [heq] at hdec; cases hdec
  next cmd rest2 heq =>
    rw [hdec] at heq
    cases heq
    rfl

/-- Everything `loadLoop` guarantees on success: the index keys stay
unique, the uncompacted delta satisfies the byte-accounting balance
`unc + live = const + consumed`, and every index entry is either
untouched or a fresh in-bounds entry for generation `g`. -/
theorem loadLoop_ok : ∀ (n : Nat) (s : List Char), s.length ≤ n →
    ∀ (g pos : Nat) (index : List (String × CommandPos)) (unc : Nat)
      (index' : List (String × CommandPos)) (unc' : Nat),
    loadLoop g s pos index unc = .ok (index', unc') →
    (index.map Prod.fst).Nodup →
    ((index'.map Prod.fst).Nodup ∧
     unc' + sumLens index' = unc + sumLens index + s.length ∧
     (∀ k cp, lookupA k index' = some cp →
        lookupA k index = some cp ∨ (cp.gen = g ∧ cp.pos + cp.len ≤ pos + s.length))) := by
  intro n
  induction n with
  | zero =>
    intro s hs g pos index unc index' unc' h hnd
    have hsz : s = [] := by
      rcases s with _ | ⟨c, t⟩
      · rfl
      · simp at hs
    subst hsz
    rw [loadLoop_nil] at h
    cases h
    exact ⟨hnd, by simp, fun k cp hk => Or.inl hk⟩
  | succ n ih =>
    intro s hs g pos index unc index' unc' h hnd
    by_cases hsz : s = []
    · subst hsz
      rw [loadLoop_nil] at h
      cases h
      exact ⟨hnd, by simp, fun k cp hk => Or.inl hk⟩
    rcases hdec : decodeCommand s with _ | ⟨cmd, rest⟩
    · rw [loadLoop_err g s pos index unc hsz hdec] at h
      cases h
    have hlt : rest.length < s.length := decode_consumes hdec
    rcases cmd with ⟨key, value⟩ | ⟨key⟩
    · rw [loadLoop_set_step g s pos index unc key value rest hsz hdec] at h
      obtain ⟨hnd', harith, hent⟩ := ih rest (by omega) g _ _ _ _ _ h
        (nodup_keys_insertA hnd _ _)
      have hins := sumLens_insertA key
        ⟨pos, (pos + (s.length - rest.length)) - pos, g⟩ index
      refine ⟨hnd', ?_, ?_⟩
      · show unc' + sumLens index'
          = unc + sumLens index + s.length
        have hel : entryLen (lookupA key index)
            = (match lookupA key index with | some o => o.len | none => 0) := by
          unfold entryLen
          rfl
        rw [hel] at hins
        simp only [CommandPos.len] at hins
        omega
      · intro k cp hk
        rcases hent k cp hk with hk2 | ⟨hg, hb⟩
        · by_cases hkey : key = k
          · subst hkey
            rw [lookupA_insertA_self] at hk2
            cases hk2
            refine Or.inr ⟨rfl, ?_⟩
            show pos + ((pos + (s.length - rest.length)) - pos) ≤ pos + s.length
            omega
          · rw [lookupA_insertA_ne hkey] at hk2
            exact Or.inl hk2
        · exact Or.inr ⟨hg, by omega⟩
    · rw [loadLoop_remove_step g s pos index unc key rest hsz hdec] at h
      obtain ⟨hnd', harith, hent⟩ := ih rest (by omega) g _ _ _ _ _ h
        (nodup_keys_eraseA hnd _)
      have hers := sumLens_eraseA key index
      refine ⟨hnd', ?_, ?_⟩
      · have hel : entryLen (lookupA key index)
            = (match lookupA key index with | some o => o.len | none => 0) := by
          unfold entryLen
          rfl
        rw [hel] at hers
        omega
      · intro k cp hk
        rcases hent k cp hk with hk2 | ⟨hg, hb⟩
        · by_cases hkey : key = k
          · subst hkey
            rw [lookupA_eraseA_self hnd] at hk2
            cases hk2
          · rw [lookupA_eraseA_ne hkey] at hk2
            exact Or.inl hk2
        · exact Or.inr ⟨hg, by omega⟩

/-- Total bytes of the files for a list of generations. -/
def gensBytes (gens : List Nat) (files : List (Nat × List Char)) : Nat :=
  (gens.map fun g => ((lookupA g files).getD []).length).sum

theorem gensBytes_total : ∀ (gs : List Nat) (fs : List (Nat × List Char)),
    (fs.map Prod.fst).Nodup → gs.Nodup →
    (∀ g : Nat, g ∈ gs ↔ g ∈ fs.map Prod.fst) →
    gensBytes gs fs = totalBytes fs := by
  intro gs
  induction gs with
  | nil =>
    intro fs _ _ hiff
    have hfs : fs = [] := by
      rcases fs with _ | ⟨p, r⟩
      · rfl
      · exfalso
        have := (hiff p.1).mpr (by simp)
        cases this
    rw [hfs]
    rfl
  | cons g gs' ih =>
    intro fs hnd hgnd hiff
    rw [List.nodup_cons] at hgnd
    have hg : g ∈ fs.map Prod.fst := (hiff g).mp (by simp)
    have hcongr : gensBytes gs' fs = gensBytes gs' (eraseA g fs) := by
      unfold gensBytes
      congr 1
      refine List.map_congr_left fun g' hg' => ?_
      rw [lookupA_eraseA_ne (show g ≠ g' by
        intro hh
        subst hh
        exact hgnd.1 hg')]
    have hiff' : ∀ g' : Nat, g' ∈ gs' ↔ g' ∈ (eraseA g fs).map Prod.fst := by
      intro g'
      rw [mem_keys_eraseA_iff hnd]
      constructor
      · intro hmem
        exact ⟨(hiff g').mp (List.mem_cons_of_mem g hmem), fun hh => hgnd.1 (hh ▸ hmem)⟩
      · rintro ⟨hmem, hne⟩
        rcases List.mem_cons.mp ((hiff g').mpr hmem) with rfl | hh
        · exact absurd rfl hne
        · exact hh
    have hIH := ih (eraseA g fs) (nodup_keys_eraseA hnd g) hgnd.2 hiff'
    have htot := totalBytes_eraseA g fs
    show ((lookupA g fs).getD []).length + gensBytes gs' fs = totalBytes fs
    rw [hcongr, hIH]
    omega

theorem loadGens_props : ∀ (gens : List Nat) (files : List (Nat × List Char))
    (readers : List Nat) (index : List (String × CommandPos)) (unc : Nat)
    (out : List Nat × List (String × CommandPos) × Nat),
    loadGens gens files readers index unc = .ok out →
    (index.map Prod.fst).Nodup →
    ((out.2.1.map Prod.fst).Nodup ∧
     out.2.2 + sumLens out.2.1 = unc + sumLens index + gensBytes gens files ∧
     (∀ x : Nat, x ∈ out.1 ↔ x ∈ readers ∨ x ∈ gens) ∧
     (readers.Nodup → out.1.Nodup) ∧
     (∀ k cp, lookupA k out.2.1 = some cp →
        lookupA k index = some cp ∨
          (cp.gen ∈ gens ∧ cp.pos + cp.len ≤ ((lookupA cp.gen files).getD []).length))) := by
  intro gens
  induction gens with
  | nil =>
    intro files readers index unc out h hnd
    cases h
    refine ⟨hnd, by simp [gensBytes], by simp, fun h => h, fun k cp hk => Or.inl hk⟩
  | cons g gens' ih =>
    intro files readers index unc out h hnd
    unfold loadGens at h
    split at h
    · cases h
    next content hlk =>
    split at h
    next e hld => cases h
    next index1 d hld =>
    obtain ⟨hnd1, harith1, hent1⟩ :=
      loadLoop_ok content.length content le_rfl g 0 index 0 index1 d hld hnd
    obtain ⟨hndO, harithO, hreadO, hnodO, hentO⟩ := ih files (insertGen g readers) index1
      (unc + d) out h hnd1
    refine ⟨hndO, ?_, ?_, ?_, ?_⟩
    · show out.2.2 + sumLens out.2.1
        = unc + sumLens index + gensBytes (g :: gens') files
      have hgb : gensBytes (g :: gens') files
          = content.length + gensBytes gens' files := by
        unfold gensBytes
        rw [List.map_cons, List.sum_cons, hlk]
        rfl
      rw [hgb]
      omega
    · intro x
      rw [hreadO x, mem_insertGen, List.mem_cons]
      tauto
    · intro hrnd
      exact hnodO (nodup_insertGen hrnd g)
    · intro k cp hk
      rcases hentO k cp hk with hk1 | ⟨hgen, hb⟩
      · rcases hent1 k cp hk1 with hk2 | ⟨hgen, hb⟩
        · exact Or.inl hk2
        · refine Or.inr ⟨by rw [hgen]; simp, ?_⟩
          rw [hgen, hlk]
          simpa using hb
      · exact Or.inr ⟨List.mem_cons_of_mem g hgen, hb⟩

/-- Everything `open` guarantees: the invariant holds, the byte
accounting `uncompacted + live = total` holds, the fresh current
generation is `max(existing) + 1` (so `1` on an empty directory), its
log file is created empty, the writer is bound to it at position 0,
and its reader is in the fleet. -/
theorem openStore_spec (files0 : List (Nat × List Char)) (s : KvStore)
    (hnd : (files0.map Prod.fst).Nodup)
    (h : KvStore.openStore files0 = .ok s) :
    Inv s ∧
    s.uncompacted + sumLens s.index = totalBytes s.files ∧
    s.current_gen = maxGen files0 + 1 ∧
    s.writerGen = s.current_gen ∧
    s.writerPos = 0 ∧
    s.current_gen ∈ s.readers ∧
    lookupA s.current_gen s.files = some [] := by
  unfold KvStore.openStore at h
  split at h
  · cases h
  next readers index unc hlg =>
  have h2 : Except.ok (⟨insertGen ((sortGenList files0).getLast?.getD 0 + 1) readers,
      insertA ((sortGenList files0).getLast?.getD 0 + 1)
        ((lookupA ((sortGenList files0).getLast?.getD 0 + 1) files0).getD []) files0,
      (sortGenList files0).getLast?.getD 0 + 1,
      ((lookupA ((sortGenList files0).getLast?.getD 0 + 1) files0).getD []).length,
      index, (sortGenList files0).getLast?.getD 0 + 1, unc⟩ : KvStore) = Except.ok s := h
  clear h
  obtain ⟨hndI, harith, hread, hrnod, hent⟩ :=
    loadGens_props (sortGenList files0) files0 [] [] 0 (readers, index, unc) hlg (by simp)
  simp only [] at hndI harith hread hrnod hent
  have hmax : (sortGenList files0).getLast?.getD 0 = maxGen files0 :=
    sortGenList_getLastD files0
  have hcur : lookupA (maxGen files0 + 1) files0 = none := lookupA_maxGen_succ files0
  have hcurm : (maxGen files0 + 1) ∉ files0.map Prod.fst :=
    (lookupA_eq_none_iff _ _).mp hcur
  have hreadm : ∀ x : Nat, x ∈ readers ↔ x ∈ files0.map Prod.fst := by
    intro x
    rw [hread x]
    simp [mem_sortGenList]
  have hfr : newLogFile (maxGen files0 + 1) files0 readers
      = (files0 ++ [(maxGen files0 + 1, [])],
         insertGen (maxGen files0 + 1) readers, 0) := by
    unfold newLogFile
    rw [hcur]
    simp only [Option.getD_none]
    rw [insertA_of_not_mem hcurm]
    rfl
  rw [hmax] at h2
  rw [hcur] at h2
  simp only [Option.getD_none] at h2
  rw [insertA_of_not_mem hcurm] at h2
  have h3 : (⟨insertGen (maxGen files0 + 1) readers,
      files0 ++ [(maxGen files0 + 1, [])],
      maxGen files0 + 1, 0, index, maxGen files0 + 1, unc⟩ : KvStore) = s :=
    Except.ok.inj h2
  cases h3
  have hlookf : lookupA (maxGen files0 + 1)
      (files0 ++ [(maxGen files0 + 1, [])]) = some [] := by
    rw [lookupA_append, hcur]
    simp [lookupA]
  have hgle : ∀ g ∈ readers, g ≤ maxGen files0 := by
    intro g hg
    exact le_foldr_max ((hreadm g).mp hg)
  have hfinal : ∀ g cp, lookupA g files0 = some cp →
      lookupA g (files0 ++ [(maxGen files0 + 1, [])]) = some cp := by
    intro g cp hg
    rw [lookupA_append, hg]
    rfl
  refine ⟨?_, ?_, rfl, rfl, rfl, ?_, hlookf⟩
  · constructor
    case wg => rfl
    case cr =>
      show maxGen files0 + 1 ∈ insertGen (maxGen files0 + 1) readers
      rw [mem_insertGen]
      exact Or.inl rfl
    case rle =>
      intro g hg
      rw [mem_insertGen] at hg
      rcases hg with rfl | hg
      · exact le_rfl
      · have := hgle g hg
        show g ≤ maxGen files0 + 1
        omega
    case rnd => exact nodup_insertGen (hrnod (by simp)) _
    case fnd =>
      show ((files0 ++ [(maxGen files0 + 1, [])]).map Prod.fst).Nodup
      rw [List.map_append]
      rw [List.nodup_append]
      refine ⟨hnd, by simp, ?_⟩
      intro a ha hb
      simp at hb
      subst hb
      exact hcurm ha
    case rf =>
      intro g
      show g ∈ insertGen (maxGen files0 + 1) readers
        ↔ g ∈ (files0 ++ [(maxGen files0 + 1, [])]).map Prod.fst
      rw [mem_insertGen, hreadm g, List.map_append, List.mem_append]
      simp
      tauto
    case ind => exact hndI
    case ig =>
      intro k cp hk
      rcases hent k cp hk with hk2 | ⟨hg, _⟩
      · cases hk2
      · show cp.gen ∈ insertGen (maxGen files0 + 1) readers
        rw [mem_insertGen]
        exact Or.inr ((hreadm cp.gen).mpr ((mem_sortGenList files0 cp.gen).mp hg))
    case ib =>
      intro k cp hk
      rcases hent k cp hk with hk2 | ⟨hg, hb⟩
      · cases hk2
      · show cp.pos + cp.len
          ≤ ((lookupA cp.gen (files0 ++ [(maxGen files0 + 1, [])])).getD []).length
        have hgm : cp.gen ∈ files0.map Prod.fst := (mem_sortGenList files0 cp.gen).mp hg
        rcases hlk : lookupA cp.gen files0 with _ | f
        · rw [lookupA_eq_none_iff] at hlk
          exact absurd hgm hlk
        · rw [hfinal cp.gen f hlk]
          rw [hlk] at hb
          exact hb
    case wp =>
      show (0 : Nat) = ((lookupA (maxGen files0 + 1)
        (files0 ++ [(maxGen files0 + 1, [])])).getD []).length
      rw [hlookf]
      rfl
  · show unc + sumLens index = totalBytes (files0 ++ [(maxGen files0 + 1, [])])
    rw [totalBytes_append]
    have hgb : gensBytes (sortGenList files0) files0 = totalBytes files0 :=
      gensBytes_total (sortGenList files0) files0 hnd (nodup_sortGenList hnd)
        (mem_sortGenList files0)
    have : totalBytes [(maxGen files0 + 1, ([] : List Char))] = 0 := rfl
    rw [this]
    rw [show sumLens [] = 0 from rfl] at harith
    omega
  · show maxGen files0 + 1 ∈ insertGen (maxGen files0 + 1) readers
    rw [mem_insertGen]
    exact Or.inl rfl

theorem compact_ok (s : KvStore) (hInv : Inv s) : (s.compact).1 = .ok () := by
  obtain ⟨index', content, heq, _⟩ := compact_spec s hInv
  rw [heq]

/-- `compact` preserves the invariant. -/
theorem inv_compact (s : KvStore) (hInv : Inv s) : Inv (s.compact).2 := by
  obtain ⟨index', content, heq, hkeys, hsum, hnone, hsome⟩ := compact_spec s hInv
  rw [heq]
  dsimp only
  constructor
  case wg => rfl
  case cr => simp
  case rle =>
    intro g hg
    simp at hg
    rcases hg with rfl | rfl
    · show s.current_gen + 1 ≤ s.current_gen + 2
      omega
    · exact le_rfl
  case rnd => simp
  case fnd => simp
  case rf =>
    intro g
    simp
    tauto
  case ind =>
    show (index'.map Prod.fst).Nodup
    rw [hkeys]
    exact hInv.ind
  case ig =>
    intro k cp' hk
    rcases hk0 : lookupA k s.index with _ | cp
    · rw [show lookupA k index' = none from hnone k hk0] at hk
      cases hk
    · obtain ⟨cp2, hl', hgen, _, _⟩ := hsome k cp hk0
      rw [hl'] at hk
      cases hk
      rw [hgen]
      simp
  case ib =>
    intro k cp' hk
    rcases hk0 : lookupA k s.index with _ | cp
    · rw [show lookupA k index' = none from hnone k hk0] at hk
      cases hk
    · obtain ⟨cp2, hl', hgen, hb, _⟩ := hsome k cp hk0
      rw [hl'] at hk
      cases hk
      show cp'.pos + cp'.len ≤ (fileOf _ cp'.gen).length
      rw [hgen]
      rw [show fileOf (⟨[s.current_gen + 1, s.current_gen + 2],
          [(s.current_gen + 2, []), (s.current_gen + 1, content)],
          s.current_gen + 2, 0, index', s.current_gen + 2, 0⟩ : KvStore)
          (s.current_gen + 1) = content by
        unfold fileOf
        dsimp only
        rw [lookupA_cons_ne (show ((s.current_gen + 2, ([] : List Char)) :
            Nat × List Char).1 ≠ s.current_gen + 1 by simp)]
        rw [lookupA_cons_self]
        rfl]
      exact hb
  case wp =>
    show (0 : Nat) = (fileOf _ (s.current_gen + 2)).length
    rw [show fileOf (⟨[s.current_gen + 1, s.current_gen + 2],
        [(s.current_gen + 2, []), (s.current_gen + 1, content)],
        s.current_gen + 2, 0, index', s.current_gen + 2, 0⟩ : KvStore)
        (s.current_gen + 2) = [] by
      unfold fileOf
      dsimp only
      rw [lookupA_cons_self]
      rfl]
    rfl

/-- `compact` does not change the result of `get` for any key. -/
theorem compact_get (s : KvStore) (hInv : Inv s) (k : String) :
    (s.compact).2.get k = s.get k := by
  obtain ⟨index', content, heq, hkeys, hsum, hnone, hsome⟩ := compact_spec s hInv
  rw [heq]
  dsimp only
  rcases hk0 : lookupA k s.index with _ | cp
  · rw [get_eq_none hk0, get_eq_none (show lookupA k index' = none from hnone k hk0)]
  · obtain ⟨cp', hl', hgen, hb, hseg⟩ := hsome k cp hk0
    rw [get_eq_some hk0, get_eq_some (show lookupA k
        (⟨[s.current_gen + 1, s.current_gen + 2],
          [(s.current_gen + 2, []), (s.current_gen + 1, content)],
          s.current_gen + 2, 0, index', s.current_gen + 2, 0⟩ : KvStore).index
        = some cp' from hl')]
    unfold getLookup
    rw [if_pos (hInv.ig k cp hk0)]
    rw [if_pos (show cp'.gen ∈ (⟨[s.current_gen + 1, s.current_gen + 2],
        [(s.current_gen + 2, []), (s.current_gen + 1, content)],
        s.current_gen + 2, 0, index', s.current_gen + 2, 0⟩ : KvStore).readers by
      rw [hgen]; simp)]
    rw [show segOf (⟨[s.current_gen + 1, s.current_gen + 2],
        [(s.current_gen + 2, []), (s.current_gen + 1, content)],
        s.current_gen + 2, 0, index', s.current_gen + 2, 0⟩ : KvStore) cp'
        = segOf s cp by
      rw [← hseg]
      unfold segOf fileOf
      dsimp only
      rw [hgen]
      rw [lookupA_cons_ne (show ((s.current_gen + 2, ([] : List Char)) :
          Nat × List Char).1 ≠ s.current_gen + 1 by simp)]
      rw [lookupA_cons_self]
      rfl]

/-! ## Operation-level lemmas -/

theorem set_eq_ok (s : KvStore) (io : IoOutcome) (k v : String)
    (hw : io.writeOk = true) (hf : io.flushOk = true) :
    s.set io k v = (if (s.setRaw k v).uncompacted > COMPACTION_THRESHOLD
      then (s.setRaw k v).compact else (.ok (), s.setRaw k v)) := by
  unfold KvStore.set
  rw [hw, hf]
  simp

theorem set_eq_fail_write (s : KvStore) (io : IoOutcome) (k v : String)
    (hw : io.writeOk = false) :
    s.set io k v = (.error (.kvs .Io), s) := by
  unfold KvStore.set
  rw [hw]
  simp

theorem set_eq_fail_flush (s : KvStore) (io : IoOutcome) (k v : String)
    (hw : io.writeOk = true) (hf : io.flushOk = false) :
    s.set io k v = (.error (.kvs .Io),
      { s with files := appendToFile s.writerGen (encodeCommand (Command.set k v)) s.files,
               writerPos := s.writerPos + (encodeCommand (Command.set k v)).length }) := by
  unfold KvStore.set
  rw [hw, hf]
  simp

theorem remove_eq_notmem (s : KvStore) (io : IoOutcome) (key : String)
    (h : lookupA key s.index = none) :
    s.remove io key = (.error (.kvs .KeyNotFound), s) := by
  unfold KvStore.remove
  rw [h]
  simp

theorem remove_eq_fail_write (s : KvStore) (io : IoOutcome) (key : String)
    (hmem : (lookupA key s.index).isSome) (hw : io.writeOk = false) :
    s.remove io key = (.error (.kvs .Io), s) := by
  unfold KvStore.remove
  rw [if_pos hmem, hw]
  simp

/-- Which operations do not target key `k` (used to state
read-your-writes across unrelated operations). -/
def OpAvoids (k : String) : Op → Prop
  | .set _ k' _ => k' ≠ k
  | .remove _ k' => k' ≠ k
  | .compact => True

/-- Every operation, successful or failed, preserves the invariant. -/
theorem inv_applyOp (s : KvStore) (op : Op) (hInv : Inv s) : Inv (applyOp s op).2 := by
  cases op with
  | set io k v =>
    show Inv (s.set io k v).2
    rcases hw : io.writeOk with _ | _
    · rw [set_eq_fail_write s io k v hw]
      exact hInv
    rcases hf : io.flushOk with _ | _
    · rw [set_eq_fail_flush s io k v hw hf]
      exact inv_append s _ hInv
    rw [set_eq_ok s io k v hw hf]
    by_cases ht : (s.setRaw k v).uncompacted > COMPACTION_THRESHOLD
    · rw [if_pos ht]
      exact inv_compact _ (inv_setRaw s k v hInv)
    · rw [if_neg ht]
      exact inv_setRaw s k v hInv
  | remove io key =>
    show Inv (s.remove io key).2
    rcases hm : lookupA key s.index with _ | cp
    · rw [remove_eq_notmem s io key hm]
      exact hInv
    rcases hw : io.writeOk with _ | _
    · rw [remove_eq_fail_write s io key (by rw [hm]; rfl) hw]
      exact hInv
    rw [remove_eq_of_mem s io key (by rw [hm]; rfl) hw]
    exact inv_removeRaw s key hInv
  | compact =>
    exact inv_compact s hInv

/-- Every operation that does not target `k` leaves `get k`
unchanged, whether it succeeds or fails. -/
theorem get_applyOp_avoid (s : KvStore) (op : Op) (k : String) (hInv : Inv s)
    (hav : OpAvoids k op) : ((applyOp s op).2).get k = s.get k := by
  cases op with
  | set io key v =>
    show ((s.set io key v).2).get k = s.get k
    rcases hw : io.writeOk with _ | _
    · rw [set_eq_fail_write s io key v hw]
    rcases hf : io.flushOk with _ | _
    · rw [set_eq_fail_flush s io key v hw hf]
      exact get_append s _ hInv k
    rw [set_eq_ok s io key v hw hf]
    by_cases ht : (s.setRaw key v).uncompacted > COMPACTION_THRESHOLD
    · rw [if_pos ht]
      rw [compact_get _ (inv_setRaw s key v hInv) k]
      exact setRaw_get_other s key v hInv hav
    · rw [if_neg ht]
      exact setRaw_get_other s key v hInv hav
  | remove io key =>
    show ((s.remove io key).2).get k = s.get k
    rcases hm : lookupA key s.index with _ | cp
    · rw [remove_eq_notmem s io key hm]
    rcases hw : io.writeOk with _ | _
    · rw [remove_eq_fail_write s io key (by rw [hm]; rfl) hw]
    rw [remove_eq_of_mem s io key (by rw [hm]; rfl) hw]
    exact removeRaw_get_other s key hInv hav
  | compact =>
    exact compact_get s hInv k

/-- A successful `set` makes `get` on that key return the value just
written (also when the write triggers a compaction). -/
theorem set_ok_get (s : KvStore) (io : IoOutcome) (k v : String) (hInv : Inv s)
    (h : (s.set io k v).1 = .ok ()) :
    ((s.set io k v).2).get k = .ok (some v) := by
  rcases hw : io.writeOk with _ | _
  · rw [set_eq_fail_write s io k v hw] at h
    cases h
  rcases hf : io.flushOk with _ | _
  · rw [set_eq_fail_flush s io k v hw hf] at h
    cases h
  rw [set_eq_ok s io k v hw hf]
  by_cases ht : (s.setRaw k v).uncompacted > COMPACTION_THRESHOLD
  · rw [if_pos ht]
    rw [compact_get _ (inv_setRaw s k v hInv) k]
    exact setRaw_get_self s k v hInv
  · rw [if_neg ht]
    exact setRaw_get_self s k v hInv

/-- A successful `remove` makes `get` on that key return `none`. -/
theorem remove_ok_get (s : KvStore) (io : IoOutcome) (k : String) (hInv : Inv s)
    (h : (s.remove io k).1 = .ok ()) :
    ((s.remove io k).2).get k = .ok none := by
  rcases hm : lookupA k s.index with _ | cp
  · rw [remove_eq_notmem s io k hm] at h
    cases h
  rcases hw : io.writeOk with _ | _
  · rw [remove_eq_fail_write s io k (by rw [hm]; rfl) hw] at h
    cases h
  rw [remove_eq_of_mem s io k (by rw [hm]; rfl) hw]
  exact removeRaw_get_self s k hInv

/-- Every reachable state satisfies the invariant. -/
theorem reachable_inv {s : KvStore} (h : Reachable s) : Inv s := by
  induction h with
  | openR files0 s hnd hopen => exact (openStore_spec files0 s hnd hopen).1
  | stepR s op _ ih => exact inv_applyOp s op ih

/-- Running operations that avoid `k` leaves `get k` unchanged and
preserves the invariant. -/
theorem runOps_get (k : String) : ∀ (ops : List Op) (s : KvStore), Inv s →
    (∀ op ∈ ops, OpAvoids k op) →
    (runOps s ops).get k = s.get k ∧ Inv (runOps s ops) := by
  intro ops
  induction ops with
  | nil => exact fun s hInv _ => ⟨rfl, hInv⟩
  | cons op rest ih =>
    intro s hInv hav
    obtain ⟨hget, hinv⟩ := ih (applyOp s op).2 (inv_applyOp s op hInv)
      (fun o ho => hav o (List.mem_cons_of_mem op ho))
    refine ⟨?_, hinv⟩
    show (runOps (applyOp s op).2 rest).get k = s.get k
    rw [hget]
    exact get_applyOp_avoid s op k hInv (hav op (by simp))



end Kvs

deriving instance DecidableEq for Except
namespace Kvs

/-! ## Concrete stores and inputs

Small concrete directories, stores and log contents on which the
definitions evaluate, used to instantiate the theorems below. -/

/-- The store produced by `open` on an empty directory. -/
def demoStore : KvStore := ⟨[1], [(1, [])], 1, 0, [], 1, 0⟩

/-- A directory holding (empty) log files for generations 2 and 5. -/
def demoDir : List (Nat × List Char) := [(2, []), (5, [])]

/-- The store produced by `open` on `demoDir`. -/
def demoOpened : KvStore := ⟨[6, 5, 2], [(2, []), (5, []), (6, [])], 6, 0, [], 6, 0⟩

/-- The store after compacting `demoStore`. -/
def demoCompacted : KvStore := ⟨[2, 3], [(3, []), (2, [])], 3, 0, [], 3, 0⟩

/-- A fresh store holding the key `"a"`. -/
def c4Store : KvStore := (demoStore.set ioOk "a" "b").2

/-- The store after `set "a" "b"` then a successful `remove "a"` on a
fresh store: its log holds a dead `Set` record and a dead `Remove`
record, yet `uncompacted` is 0. -/
def cexStore : KvStore := ((demoStore.set ioOk "a" "b").2.remove ioOk "a").2

/-- A log file holding a `Set "a" "b"` record followed by a
`Remove "a"` record. -/
def demoContent : List Char :=
  encodeCommand (.set "a" "b") ++ encodeCommand (.remove "a")

/-- The record stream of `demoContent` (the `Set` record is 31 bytes,
the `Remove` record 22). -/
def demoRecs : List (Command × Nat) :=
  [(Command.set "a" "b", 31), (Command.remove "a", 22)]

/-- A store whose index entry for `"a"` names generation 5 while the
reader fleet is empty; no such store is reachable, but it exercises
the panic branch of `get`. -/
def panicStore : KvStore := ⟨[], [], 0, 0, [("a", ⟨0, 0, 5⟩)], 0, 0⟩

theorem openStore_demoDir : KvStore.openStore demoDir = .ok demoOpened := by
  unfold KvStore.openStore
  rw [show sortGenList demoDir = [2, 5] from by decide]
  rw [show loadGens [2, 5] demoDir [] [] 0 = .ok ([5, 2], [], 0) from by
    unfold loadGens
    rw [show lookupA 2 demoDir = some [] from by decide]
    dsimp only
    rw [show load 2 [] [] = (.ok ([], 0) : KvResult _) from loadLoop_nil 2 0 [] 0]
    dsimp only
    unfold loadGens
    rw [show lookupA 5 demoDir = some [] from by decide]
    dsimp only
    rw [show load 5 [] [] = (.ok ([], 0) : KvResult _) from loadLoop_nil 5 0 [] 0]
    dsimp only
    unfold loadGens
    rfl]
  decide

/-! ## The record stream of a log file

`recordsOf` splits a byte stream into consecutive records, each paired
with its encoded length; `loadSpec` is written from the specification's
wording of the load algorithm and is compared with `load` below. -/

/-- The records of a log file in order, each with its encoded length;
`none` when some prefix fails to decode. -/
def recordsOf (s : List Char) : Option (List (Command × Nat)) :=
  if hs : s = [] then some []
  else
    match h : decodeCommand s with
    | none => none
    | some (cmd, rest) =>
      match recordsOf rest with
      | none => none
      | some rs => some ((cmd, s.length - rest.length) :: rs)
termination_by s.length
decreasing_by
  all_goals exact decode_consumes h

theorem recordsOf_nil : recordsOf [] = some [] := by
  rw [recordsOf]
  rw [dif_pos rfl]

theorem recordsOf_err (s : List Char) (hs : s ≠ []) (hdec : decodeCommand s = none) :
    recordsOf s = none := by
  conv_lhs => rw [recordsOf]
  rw [dif_neg hs]
  split
  · rfl
  next cmd rest heq => rw [hdec] at heq; cases heq

theorem recordsOf_step_some (s : List Char) (cmd : Command) (rest : List Char)
    (rs : List (Command × Nat)) (hs : s ≠ [])
    (hdec : decodeCommand s = some (cmd, rest)) (hr : recordsOf rest = some rs) :
    recordsOf s = some ((cmd, s.length - rest.length) :: rs) := by
  conv_lhs => rw [recordsOf]
  rw [dif_neg hs]
  split
  next heq => rw [heq] at hdec; cases hdec
  next cmd2 rest2 heq =>
    rw [hdec] at heq
    cases heq
    rw [hr]

theorem recordsOf_step_none (s : List Char) (cmd : Command) (rest : List Char)
    (hs : s ≠ [])
    (hdec : decodeCommand s = some (cmd, rest)) (hr : recordsOf rest = none) :
    recordsOf s = none := by
  conv_lhs => rw [recordsOf]
  rw [dif_neg hs]
  split
  next heq => rfl
  next cmd2 rest2 heq =>
    rw [hdec] at heq
    cases heq
    rw [hr]

/-- Written from the specification's wording of the load loop: the
effect of one decoded record of length `rec.2` on the state
`(index, uncompacted_delta, pos)`.  A `Set` upserts
`index[k] = (g, pos, new_pos - pos)` charging a superseded entry's
`len`; a `Remove` deletes `index[k]` charging the deleted entry's
`len` plus `new_pos - pos` for the record itself. -/
def loadSpecStep (g : Nat) (st : List (String × CommandPos) × Nat × Nat)
    (rec : Command × Nat) : List (String × CommandPos) × Nat × Nat :=
  match rec.1 with
  | .set k _ =>
    (insertA k ⟨st.2.2, (st.2.2 + rec.2) - st.2.2, g⟩ st.1,
     st.2.1 + entryLen (lookupA k st.1),
     st.2.2 + rec.2)
  | .remove k =>
    (eraseA k st.1,
     st.2.1 + entryLen (lookupA k st.1) + ((st.2.2 + rec.2) - st.2.2),
     st.2.2 + rec.2)

/-- Written from the specification's wording: process every record in
order from offset 0, returning the final index and uncompacted delta
(and the final offset). -/
def loadSpec (g : Nat) (recs : List (Command × Nat))
    (index0 : List (String × CommandPos)) :
    List (String × CommandPos) × Nat × Nat :=
  recs.foldl (loadSpecStep g) (index0, 0, 0)

theorem loadLoop_records : ∀ (n : Nat) (s : List Char), s.length ≤ n →
    ∀ (g pos : Nat) (index : List (String × CommandPos)) (unc : Nat),
    (∀ recs, recordsOf s = some recs →
      loadLoop g s pos index unc =
        .ok ((recs.foldl (loadSpecStep g) (index, unc, pos)).1,
             (recs.foldl (loadSpecStep g) (index, unc, pos)).2.1)) ∧
    (recordsOf s = none → loadLoop g s pos index unc = .error (.kvs .Serde)) := by
  intro n
  induction n with
  | zero =>
    intro s hlen g pos index unc
    have hs : s = [] := List.eq_nil_of_length_eq_zero (Nat.le_zero.mp hlen)
    subst hs
    constructor
    · intro recs hr
      rw [recordsOf_nil] at hr
      cases hr
      rw [loadLoop_nil]
      rfl
    · intro hr
      rw [recordsOf_nil] at hr
      cases hr
  | succ m ih =>
    intro s hlen g pos index unc
    by_cases hs : s = []
    · subst hs
      constructor
      · intro recs hr
        rw [recordsOf_nil] at hr
        cases hr
        rw [loadLoop_nil]
        rfl
      · intro hr
        rw [recordsOf_nil] at hr
        cases hr
    · rcases hdec : decodeCommand s with _ | ⟨cmd, rest⟩
      · constructor
        · intro recs hr
          rw [recordsOf_err s hs hdec] at hr
          cases hr
        · intro _
          exact loadLoop_err g s pos index unc hs hdec
      · have hrest : rest.length ≤ m := by
          have := decode_consumes hdec
          omega
        cases cmd with
        | set key value =>
          obtain ⟨ih1, ih2⟩ := ih rest hrest g (pos + (s.length - rest.length))
            (insertA key ⟨pos, (pos + (s.length - rest.length)) - pos, g⟩ index)
            (unc + (match lookupA key index with | some o => o.len | none => 0))
          constructor
          · intro recs hr
            rcases hrr : recordsOf rest with _ | rs
            · rw [recordsOf_step_none s _ rest hs hdec hrr] at hr
              cases hr
            · rw [recordsOf_step_some s _ rest rs hs hdec hrr] at hr
              cases hr
              rw [loadLoop_set_step g s pos index unc key value rest hs hdec]
              rw [List.foldl_cons]
              exact ih1 rs hrr
          · intro hr
            rcases hrr : recordsOf rest with _ | rs
            · rw [loadLoop_set_step g s pos index unc key value rest hs hdec]
              exact ih2 hrr
            · rw [recordsOf_step_some s _ rest rs hs hdec hrr] at hr
              cases hr
        | remove key =>
          obtain ⟨ih1, ih2⟩ := ih rest hrest g (pos + (s.length - rest.length))
            (eraseA key index)
            (unc + (match lookupA key index with | some o => o.len | none => 0)
              + ((pos + (s.length - rest.length)) - pos))
          constructor
          · intro recs hr
            rcases hrr : recordsOf rest with _ | rs
            · rw [recordsOf_step_none s _ rest hs hdec hrr] at hr
              cases hr
            · rw [recordsOf_step_some s _ rest rs hs hdec hrr] at hr
              cases hr
              rw [loadLoop_remove_step g s pos index unc key rest hs hdec]
              rw [List.foldl_cons]
              exact ih1 rs hrr
          · intro hr
            rcases hrr : recordsOf rest with _ | rs
            · rw [loadLoop_remove_step g s pos index unc key rest hs hdec]
              exact ih2 hrr
            · rw [recordsOf_step_some s _ rest rs hs hdec hrr] at hr
              cases hr

/-! ## Byte accounting

`KvStore::remove` never touches `uncompacted` (kv.rs lines 142-154),
so the accounting invariant survives `open`, successful `set` and
`compact`, but not a successful `remove`.  `ReachableNR` is
reachability by those accounting-preserving operations. -/

/-- States reached from `open` by successful `set`s and compactions
(no successful `remove`). -/
inductive ReachableNR : KvStore → Prop where
  | openNR (files0 : List (Nat × List Char)) (s : KvStore)
      (hnd : (files0.map Prod.fst).Nodup)
      (h : KvStore.openStore files0 = .ok s) : ReachableNR s
  | stepSet (s : KvStore) (io : IoOutcome) (k v : String)
      (h : ReachableNR s) (hok : (s.set io k v).1 = .ok ()) :
      ReachableNR (s.set io k v).2
  | stepCompact (s : KvStore) (h : ReachableNR s) : ReachableNR (s.compact).2

theorem reachableNR_reachable {s : KvStore} (h : ReachableNR s) : Reachable s := by
  induction h with
  | openNR files0 s hnd hopen => exact .openR files0 s hnd hopen
  | stepSet s io k v _ hok ih => exact .stepR s (.set io k v) ih
  | stepCompact s _ ih => exact .stepR s .compact ih

theorem I5_setRaw (s : KvStore) (k v : String)
    (h5 : s.uncompacted + sumLens s.index = totalBytes s.files) :
    (s.setRaw k v).uncompacted + sumLens (s.setRaw k v).index
      = totalBytes (s.setRaw k v).files := by
  rw [setRaw_def]
  dsimp only
  unfold appendToFile
  have h1 := sumLens_insertA k
    ⟨s.writerPos, (encodeCommand (Command.set k v)).length, s.current_gen⟩ s.index
  dsimp only at h1
  have h2 := totalBytes_insertA s.writerGen
    ((lookupA s.writerGen s.files).getD [] ++ encodeCommand (Command.set k v)) s.files
  have h3 : ((lookupA s.writerGen s.files).getD []
      ++ encodeCommand (Command.set k v)).length
      = ((lookupA s.writerGen s.files).getD []).length
        + (encodeCommand (Command.set k v)).length := by
    simp
  omega

theorem I5_compact (s : KvStore) (hInv : Inv s) :
    (s.compact).2.uncompacted + sumLens (s.compact).2.index
      = totalBytes (s.compact).2.files := by
  obtain ⟨index', content, heq, _, hsum, _, _⟩ := compact_spec s hInv
  rw [heq]
  dsimp only
  rw [hsum]
  simp [totalBytes]

theorem I5_set (s : KvStore) (io : IoOutcome) (k v : String) (hInv : Inv s)
    (hok : (s.set io k v).1 = .ok ())
    (h5 : s.uncompacted + sumLens s.index = totalBytes s.files) :
    (s.set io k v).2.uncompacted + sumLens (s.set io k v).2.index
      = totalBytes (s.set io k v).2.files := by
  rcases hw : io.writeOk with _ | _
  · rw [set_eq_fail_write s io k v hw] at hok
    cases hok
  rcases hf : io.flushOk with _ | _
  · rw [set_eq_fail_flush s io k v hw hf] at hok
    cases hok
  rw [set_eq_ok s io k v hw hf]
  by_cases ht : (s.setRaw k v).uncompacted > COMPACTION_THRESHOLD
  · rw [if_pos ht]
    exact I5_compact (s.setRaw k v) (inv_setRaw s k v hInv)
  · rw [if_neg ht]
    exact I5_setRaw s k v h5

/-! ## The claims -/

/-- C1: on any reachable store, after a successful `set k v` followed
by any operations that do not target `k`, `get k` returns `some v`;
and after a successful `remove k` followed by any operations that do
not target `k`, `get k` returns `none`. -/
theorem claim_C1 (s : KvStore) (hs : Reachable s) (io : IoOutcome) (k v : String)
    (ops : List Op) (hav : ∀ op ∈ ops, OpAvoids k op) :
    ((s.set io k v).1 = .ok () →
      (runOps (s.set io k v).2 ops).get k = .ok (some v)) ∧
    ((s.remove io k).1 = .ok () →
      (runOps (s.remove io k).2 ops).get k = .ok none) := by
  have hInv := reachable_inv hs
  constructor
  · intro hok
    have hInv2 : Inv (s.set io k v).2 := inv_applyOp s (.set io k v) hInv
    obtain ⟨hg, _⟩ := runOps_get k ops (s.set io k v).2 hInv2 hav
    rw [hg]
    exact set_ok_get s io k v hInv hok
  · intro hok
    have hInv2 : Inv (s.remove io k).2 := inv_applyOp s (.remove io k) hInv
    obtain ⟨hg, _⟩ := runOps_get k ops (s.remove io k).2 hInv2 hav
    rw [hg]
    exact remove_ok_get s io k hInv hok

theorem claim_C1_witness :
    (demoStore.set ioOk "a" "b").1 = .ok () ∧
    (runOps (demoStore.set ioOk "a" "b").2 [Op.set ioOk "c" "d"]).get "a"
      = .ok (some "b") ∧
    ((demoStore.set ioOk "a" "b").2.remove ioOk "a").1 = .ok () ∧
    (runOps ((demoStore.set ioOk "a" "b").2.remove ioOk "a").2 []).get "a"
      = .ok none := by
  refine ⟨by decide, ?_, by decide, ?_⟩
  · exact (claim_C1 demoStore (.openR [] demoStore (by decide) (by decide))
      ioOk "a" "b" [Op.set ioOk "c" "d"]
      (by
        intro op hop
        rw [List.mem_singleton] at hop
        subst hop
        exact (by decide : ("c" : String) ≠ "a"))).1 (by decide)
  · exact (claim_C1 (demoStore.set ioOk "a" "b").2
      (Reachable.stepR demoStore (.set ioOk "a" "b")
        (.openR [] demoStore (by decide) (by decide)))
      ioOk "a" "b" []
      (by intro op hop; cases hop)).2 (by decide)

/-- C2: on any reachable store, after `compact` returns `Ok`, every
reader-fleet generation and every on-disk generation is at least
`compaction_gen = current_gen + 1`, every index entry points into
`compaction_gen`, `uncompacted` is 0, and `get` is unchanged on every
key. -/
theorem claim_C2 (s : KvStore) (hs : Reachable s) (s' : KvStore)
    (h : s.compact = (.ok (), s')) :
    (∀ g ∈ s'.readers, s.current_gen + 1 ≤ g) ∧
    (∀ g ∈ s'.files.map Prod.fst, s.current_gen + 1 ≤ g) ∧
    (∀ k cp, lookupA k s'.index = some cp → cp.gen = s.current_gen + 1) ∧
    s'.uncompacted = 0 ∧
    (∀ k, s'.get k = s.get k) := by
  have hInv := reachable_inv hs
  obtain ⟨index', content, heq, hkeys, hsum, hnone, hsome⟩ := compact_spec s hInv
  have hs' : s' = ⟨[s.current_gen + 1, s.current_gen + 2],
      [(s.current_gen + 2, []), (s.current_gen + 1, content)],
      s.current_gen + 2, 0, index', s.current_gen + 2, 0⟩ := by
    rw [heq] at h
    exact (congrArg Prod.snd h).symm
  subst hs'
  refine ⟨?_, ?_, ?_, rfl, ?_⟩
  · intro g hg
    simp at hg
    rcases hg with rfl | rfl <;> omega
  · intro g hg
    simp at hg
    rcases hg with rfl | rfl <;> omega
  · intro k cp hk
    dsimp only at hk
    rcases hk0 : lookupA k s.index with _ | cp0
    · rw [hnone k hk0] at hk
      cases hk
    · obtain ⟨cp', hl', hgen, _, _⟩ := hsome k cp0 hk0
      rw [hl'] at hk
      cases hk
      exact hgen
  · intro k
    have hgk := compact_get s hInv k
    rw [heq] at hgk
    exact hgk

theorem claim_C2_witness :
    demoStore.compact = (.ok (), demoCompacted) ∧
    ((∀ g ∈ demoCompacted.readers, demoStore.current_gen + 1 ≤ g) ∧
     (∀ g ∈ demoCompacted.files.map Prod.fst, demoStore.current_gen + 1 ≤ g) ∧
     (∀ k cp, lookupA k demoCompacted.index = some cp →
        cp.gen = demoStore.current_gen + 1) ∧
     demoCompacted.uncompacted = 0 ∧
     (∀ k, demoCompacted.get k = demoStore.get k)) :=
  ⟨by decide, claim_C2 demoStore (.openR [] demoStore (by decide) (by decide))
    demoCompacted (by decide)⟩

/-- C3 (amended): the byte-accounting equality `uncompacted + live
bytes = total bytes on disk` holds after `open` and is preserved by
every successful `set` (including a triggered compaction) and by
`compact`; the claim's form — that every operation including `remove`
maintains it — fails, see the counterexample. -/
theorem claim_C3 (s : KvStore) (h : ReachableNR s) :
    s.uncompacted + sumLens s.index = totalBytes s.files := by
  induction h with
  | openNR files0 s hnd hopen => exact (openStore_spec files0 s hnd hopen).2.1
  | stepSet s io k v hr hok ih =>
    exact I5_set s io k v (reachable_inv (reachableNR_reachable hr)) hok ih
  | stepCompact s hr ih =>
    exact I5_compact s (reachable_inv (reachableNR_reachable hr))

theorem claim_C3_witness :
    KvStore.openStore [] = .ok demoStore ∧
    demoStore.uncompacted + sumLens demoStore.index = totalBytes demoStore.files :=
  ⟨by decide, claim_C3 demoStore (.openNR [] demoStore (by decide) (by decide))⟩

/-- C3 counterexample: `cexStore` is reachable (fresh store, `set "a"
"b"`, successful `remove "a"`), its log holds 53 bytes of dead
records (the 31-byte `Set` and the 22-byte `Remove`), its index is
empty, yet `uncompacted = 0`: after a successful `remove` the
uncompacted counter does not equal the dead bytes
(`KvStore::remove` never adds to `uncompacted`). -/
theorem claim_C3_counterexample :
    Reachable cexStore ∧
    cexStore.index = [] ∧
    totalBytes cexStore.files = 53 ∧
    cexStore.uncompacted ≠ totalBytes cexStore.files - sumLens cexStore.index := by
  refine ⟨?_, by decide, by decide, by decide⟩
  exact Reachable.stepR (demoStore.set ioOk "a" "b").2 (.remove ioOk "a")
    (Reachable.stepR demoStore (.set ioOk "a" "b")
      (.openR [] demoStore (by decide) (by decide)))

/-- C4 (code bug): with the key present and the flush of the `Remove`
record failing, `remove` still returns `Ok ()` — kv.rs line 146
(`self.writer.flush();`) discards the flush's `Result`, so not every
underlying I/O error surfaces. -/
theorem claim_C4 :
    (lookupA "a" c4Store.index).isSome = true ∧
    (⟨true, false⟩ : IoOutcome).flushOk = false ∧
    (c4Store.remove ⟨true, false⟩ "a").1 = .ok () := by
  decide

/-- C5: `load g content index` processes every record in order from
offset 0 exactly as the specification words it (`loadSpec`): when the
whole file decodes into records `recs`, it returns the index and
uncompacted delta of folding `loadSpecStep` over `recs`; when some
record fails to decode, it returns the decode error. -/
theorem claim_C5 (g : Nat) (content : List Char)
    (index0 : List (String × CommandPos)) :
    (∀ recs, recordsOf content = some recs →
      load g content index0 =
        .ok ((loadSpec g recs index0).1, (loadSpec g recs index0).2.1)) ∧
    (recordsOf content = none → load g content index0 = .error (.kvs .Serde)) :=
  loadLoop_records content.length content (Nat.le_refl _) g 0 index0 0

theorem claim_C5_witness :
    recordsOf demoContent = some demoRecs ∧
    load 7 demoContent [] =
      .ok ((loadSpec 7 demoRecs []).1, (loadSpec 7 demoRecs []).2.1) ∧
    recordsOf ['x'] = none ∧
    load 7 ['x'] [] = .error (.kvs .Serde) := by
  have hd1 : decodeCommand demoContent
      = some (Command.set "a" "b", encodeCommand (Command.remove "a")) :=
    decode_encode (Command.set "a" "b") (encodeCommand (Command.remove "a"))
  have hd2 : decodeCommand (encodeCommand (Command.remove "a"))
      = some (Command.remove "a", []) := by
    have h := decode_encode (Command.remove "a") []
    rwa [List.append_nil] at h
  have hr1 : recordsOf demoContent = some demoRecs := by
    rw [recordsOf_step_some demoContent (Command.set "a" "b")
      (encodeCommand (Command.remove "a"))
      [(Command.remove "a", 22)] (by decide) hd1
      (by
        rw [recordsOf_step_some (encodeCommand (Command.remove "a"))
          (Command.remove "a") [] [] (by decide) hd2 recordsOf_nil]
        decide)]
    decide
  have hr2 : recordsOf ['x'] = none :=
    recordsOf_err ['x'] (by decide) (by decide)
  exact ⟨hr1, (claim_C5 7 demoContent []).1 demoRecs hr1, hr2,
    (claim_C5 7 ['x'] []).2 hr2⟩

/-- C6: when `open` succeeds it sets the current generation to one
more than the maximum generation in the directory (1 on an empty
directory since `maxGen [] = 0`), creates that generation's log file
empty, binds the append writer to it at position 0, and inserts a
reader for it into the fleet. -/
theorem claim_C6 (files0 : List (Nat × List Char)) (s : KvStore)
    (hnd : (files0.map Prod.fst).Nodup)
    (h : KvStore.openStore files0 = .ok s) :
    s.current_gen = maxGen files0 + 1 ∧
    lookupA s.current_gen s.files = some [] ∧
    s.writerGen = s.current_gen ∧
    s.writerPos = 0 ∧
    s.current_gen ∈ s.readers := by
  obtain ⟨_, _, h1, h2, h3, h4, h5⟩ := openStore_spec files0 s hnd h
  exact ⟨h1, h5, h2, h3, h4⟩

theorem claim_C6_witness :
    (demoDir.map Prod.fst).Nodup ∧
    KvStore.openStore demoDir = .ok demoOpened ∧
    (demoOpened.current_gen = maxGen demoDir + 1 ∧
     lookupA demoOpened.current_gen demoOpened.files = some [] ∧
     demoOpened.writerGen = demoOpened.current_gen ∧
     demoOpened.writerPos = 0 ∧
     demoOpened.current_gen ∈ demoOpened.readers) :=
  ⟨by decide, openStore_demoDir,
    claim_C6 demoDir demoOpened (by decide) openStore_demoDir⟩

/-- C7: `remove` on a key absent from the index fails with
`KeyNotFound` and leaves the store exactly unchanged (no record
appended, index, writer position and uncompacted untouched). -/
theorem claim_C7 (s : KvStore) (io : IoOutcome) (k : String)
    (h : lookupA k s.index = none) :
    (s.remove io k).1 = .error (.kvs .KeyNotFound) ∧ (s.remove io k).2 = s := by
  rw [remove_eq_notmem s io k h]
  exact ⟨rfl, rfl⟩

theorem claim_C7_witness :
    lookupA "z" demoStore.index = none ∧
    ((demoStore.remove ioOk "z").1 = .error (.kvs .KeyNotFound) ∧
     (demoStore.remove ioOk "z").2 = demoStore) :=
  ⟨by decide, claim_C7 demoStore ioOk "z" (by decide)⟩

/-- C8: a `set` that fails on the write or on the flush returns the
I/O error and leaves the index and the uncompacted counter exactly as
they were. -/
theorem claim_C8 (s : KvStore) (io : IoOutcome) (k v : String)
    (h : io.writeOk = false ∨ io.flushOk = false) :
    (s.set io k v).1 = .error (.kvs .Io) ∧
    (s.set io k v).2.index = s.index ∧
    (s.set io k v).2.uncompacted = s.uncompacted := by
  rcases hw : io.writeOk with _ | _
  · rw [set_eq_fail_write s io k v hw]
    exact ⟨rfl, rfl, rfl⟩
  · have hf : io.flushOk = false := by
      rcases h with h | h
      · rw [h] at hw
        cases hw
      · exact h
    rw [set_eq_fail_flush s io k v hw hf]
    exact ⟨rfl, rfl, rfl⟩

theorem claim_C8_witness :
    ((⟨true, false⟩ : IoOutcome).writeOk = false ∨
     (⟨true, false⟩ : IoOutcome).flushOk = false) ∧
    ((demoStore.set ⟨true, false⟩ "a" "b").1 = .error (.kvs .Io) ∧
     (demoStore.set ⟨true, false⟩ "a" "b").2.index = demoStore.index ∧
     (demoStore.set ⟨true, false⟩ "a" "b").2.uncompacted = demoStore.uncompacted) :=
  ⟨Or.inr rfl, claim_C8 demoStore ⟨true, false⟩ "a" "b" (Or.inr rfl)⟩

/-- C9: encoding a `Set k v` record and decoding the produced bytes
yields `Set k v` back (consuming the whole encoding); likewise for
`Remove k` (codec round-trip). -/
theorem claim_C9 (k v : String) :
    decodeCommand (encodeCommand (Command.set k v)) = some (Command.set k v, []) ∧
    decodeCommand (encodeCommand (Command.remove k)) = some (Command.remove k, []) := by
  constructor
  · have h := decode_encode (Command.set k v) []
    rwa [List.append_nil] at h
  · have h := decode_encode (Command.remove k) []
    rwa [List.append_nil] at h

/-- C10: `get` hits the panic branch exactly when the index entry's
generation has no reader in the fleet; and on every reachable store
(where invariant I1 holds) `get` never panics. -/
theorem claim_C10 :
    (∀ (s : KvStore) (k : String) (cp : CommandPos),
      lookupA k s.index = some cp → cp.gen ∉ s.readers →
        s.get k = .error .panic) ∧
    (∀ s : KvStore, Reachable s → ∀ k : String, s.get k ≠ .error .panic) := by
  constructor
  · intro s k cp hk hr
    rw [get_eq_some hk]
    unfold getLookup
    rw [if_neg hr]
  · intro s hs k
    have hInv := reachable_inv hs
    rcases hk : lookupA k s.index with _ | cp
    · rw [get_eq_none hk]
      simp
    · rw [get_eq_some hk]
      unfold getLookup
      rw [if_pos (hInv.ig k cp hk)]
      split <;> simp

theorem claim_C10_witness :
    lookupA "a" panicStore.index = some ⟨0, 0, 5⟩ ∧
    (⟨0, 0, 5⟩ : CommandPos).gen ∉ panicStore.readers ∧
    panicStore.get "a" = .error .panic ∧
    demoStore.get "a" ≠ .error .panic :=
  ⟨by decide, by decide,
    claim_C10.1 panicStore "a" ⟨0, 0, 5⟩ (by decide) (by decide),
    claim_C10.2 demoStore (.openR [] demoStore (by decide) (by decide)) "a"⟩

end Kvs
